import Mathlib

/-
Verification development for the de Bruijn graph assembler
(`src/debruijn/debruijn.py`).

The Python code is shallowly embedded here:

* Python strings (reads, k-mers, graph nodes) are `List Char`.
* A networkx `DiGraph` is a record of its node list (in insertion order)
  and its edge list `(source, target, weight)` (in insertion order);
  networkx stores adjacency in insertion-ordered dicts, so insertion order
  is exactly what iteration over nodes / successors / predecessors sees.
* Edge weights are natural numbers (k-mer occurrence counts);
  `statistics.mean` is modelled as exact rational arithmetic (`ℚ`).
  Python computes the mean as a float; for the magnitudes that occur in a
  k-mer graph the float result is the correctly rounded image of this
  rational number and all comparisons made by the code agree with `ℚ`.
* Functions that mutate the graph in place and can raise a Python
  exception are modelled as returning the graph state reached so far
  together with `Option PyErr` (`none` = normal return).
* `networkx.all_simple_paths` is a DFS over successors in adjacency
  order; the recursion is bounded by the number of nodes, which is what
  makes it total here (fuel argument).
-/

/-- Python exceptions that the embedded fragment can raise. -/
inductive PyErr where
  /-- `RuntimeError: dictionary changed size during iteration`. -/
  | runtimeError
  /-- `TypeError` — e.g. `lowest_common_ancestor` called with too many arguments. -/
  | typeError
  /-- `networkx.NetworkXError` — e.g. LCA on a cyclic graph, removing a missing node. -/
  | networkXError
  /-- `statistics.StatisticsError` — `mean` of an empty sequence. -/
  | statisticsError
deriving Repr, DecidableEq

/-- A graph node: a (k−1)-mer, i.e. a Python string. -/
abbrev Node := List Char

/-- The networkx `DiGraph` as used by the program: nodes in insertion order,
edges `(u, v, weight)` in insertion order, at most one edge per `(u, v)` key
when constructed through `add_edge`. -/
structure DiGraph where
  nodes : List Node
  edges : List (Node × Node × Nat)
deriving Repr, DecidableEq

/-- `G.add_node(n)` part of `add_edge`: a node is appended only if new. -/
def addNode (g : DiGraph) (n : Node) : DiGraph :=
  if n ∈ g.nodes then g else ⟨g.nodes ++ [n], g.edges⟩

/-- `G.add_edge(u, v, weight=w)`: inserts both endpoints, then inserts the
edge, overwriting the weight in place if the `(u, v)` key already exists. -/
def add_edge (g : DiGraph) (u v : Node) (w : Nat) : DiGraph :=
  let g1 := addNode (addNode g u) v
  if g1.edges.any (fun e => e.1 = u ∧ e.2.1 = v) then
    ⟨g1.nodes, g1.edges.map (fun e => if e.1 = u ∧ e.2.1 = v then (u, v, w) else e)⟩
  else
    ⟨g1.nodes, g1.edges ++ [(u, v, w)]⟩

/-- `list(G.successors(u))`, in adjacency (= edge insertion) order. -/
def successors (g : DiGraph) (u : Node) : List Node :=
  (g.edges.filter (fun e => e.1 = u)).map (fun e => e.2.1)

/-- `list(G.predecessors(v))`, in adjacency (= edge insertion) order. -/
def predecessors (g : DiGraph) (v : Node) : List Node :=
  (g.edges.filter (fun e => e.2.1 = v)).map (fun e => e.1)

/-- `G.in_degree(v)` (no parallel edges in this program). -/
def in_degree (g : DiGraph) (v : Node) : Nat :=
  (predecessors g v).length

/-- `G.out_degree(u)`. -/
def out_degree (g : DiGraph) (u : Node) : Nat :=
  (successors g u).length

/-- `G.remove_node(n)` after the membership check: drops the node and all
incident edges. -/
def removeNode (g : DiGraph) (n : Node) : DiGraph :=
  ⟨g.nodes.filter (fun x => x ≠ n), g.edges.filter (fun e => e.1 ≠ n ∧ e.2.1 ≠ n)⟩

/-- `G.remove_nodes_from(ns)`: removes every listed node, silently ignoring
missing ones (`remove_nodes_from` catches the per-node exception). -/
def removeNodesFrom (g : DiGraph) (ns : List Node) : DiGraph :=
  ⟨g.nodes.filter (fun x => x ∉ ns), g.edges.filter (fun e => e.1 ∉ ns ∧ e.2.1 ∉ ns)⟩

/-- DFS core of `networkx.all_simple_paths`: all duplicate-free paths from
`u` to `t`, successors explored in adjacency order, `visited` holding the
nodes already on the current path (including `u`).  The fuel argument only
bounds the recursion depth; it is started at `g.nodes.length`, which no
simple path can exceed, so no path is ever truncated. -/
def allSimplePathsAux (g : DiGraph) (t : Node) :
    Nat → Node → List Node → List (List Node)
  | fuel, u, visited =>
    if u = t then [[u]]
    else
      match fuel with
      | 0 => []
      | Nat.succ f =>
        ((successors g u).filter (fun v => v ∉ visited)).flatMap
          (fun v => (allSimplePathsAux g t f v (v :: visited)).map (fun p => u :: p))

/-- `list(networkx.all_simple_paths(G, s, t))` in DFS emission order
(for `s = t` the single trivial path `[s]`). -/
def all_simple_paths (g : DiGraph) (s t : Node) : List (List Node) :=
  allSimplePathsAux g t g.nodes.length s [s]

/-- `networkx.has_path(G, s, t)`: a path exists iff a simple path exists. -/
def hasPathB (g : DiGraph) (s t : Node) : Bool :=
  ¬ (all_simple_paths g s t).isEmpty

/-- Set of common ancestors of `u` and `v` as computed inside
`networkx.lowest_common_ancestor`: `ancestors(G, u) ∪ {u}` intersected with
`ancestors(G, v) ∪ {v}`; since every node reaches itself, this is exactly
the nodes with a path to both.  Python iterates this as a hash set, whose
order is not guaranteed; we list it in node insertion order.  Every theorem
below that depends on a concrete LCA value uses a graph on which all
iteration orders produce the same result. -/
def commonAncestors (g : DiGraph) (u v : Node) : List Node :=
  g.nodes.filter (fun x => hasPathB g x u ∧ hasPathB g x v)

/-- The walk-down loop of `networkx.lowest_common_ancestor`: repeatedly move
to the first successor that is still a common ancestor. -/
def lcaWalk (g : DiGraph) (common : List Node) : Nat → Node → Node
  | 0, c => c
  | Nat.succ f, c =>
    match (successors g c).find? (fun x => x ∈ common) with
    | some nxt => lcaWalk g common f nxt
    | none => c

/-- `networkx.lowest_common_ancestor(G, u, v)` on a DAG: pick a common
ancestor and walk down until none of its successors is a common ancestor;
`none` models the Python `None`/`default` return when no common ancestor
exists.  (The caller has already checked acyclicity.) -/
def lowest_common_ancestor (g : DiGraph) (u v : Node) : Option Node :=
  match (commonAncestors g u v).head? with
  | none => none
  | some c => some (lcaWalk g (commonAncestors g u v) g.nodes.length c)

/-- `networkx.is_directed_acyclic_graph(G)`: no node lies on a directed
cycle, i.e. no successor of `u` has a path back to `u`. -/
def isDag (g : DiGraph) : Bool :=
  g.nodes.all (fun u => ¬ (successors g u).any (fun v => hasPathB g v u))

/-- The edges of `graph.subgraph(path)`: the subgraph *induced* by the
path's node set, so edges between non-consecutive path nodes (chords,
self-loops) are included too. -/
def inducedEdges (g : DiGraph) (path : List Node) : List (Node × Node × Nat) :=
  g.edges.filter (fun e => e.1 ∈ path ∧ e.2.1 ∈ path)

/-- `path_average_weight(graph, path)`:
`statistics.mean([d["weight"] for (u, v, d) in graph.subgraph(path).edges(data=True)])`;
`none` models the `StatisticsError` raised by `mean` on an empty sequence. -/
def path_average_weight (g : DiGraph) (path : List Node) : Option ℚ :=
  let es := inducedEdges g path
  if es.isEmpty then none
  else some (((es.map (fun e => (e.2.2 : ℚ))).sum) / es.length)

/-- Numerator of the average weight (sum of induced edge weights); the
executable comparison code below compares the exact rational means
`wSum/wCnt` by cross-multiplication, which is equivalent and lets the
kernel evaluate concrete instances. -/
def wSum (g : DiGraph) (path : List Node) : Int :=
  ((inducedEdges g path).map (fun e => (e.2.2 : Int))).sum

/-- Denominator of the average weight (number of induced edges);
`wCnt = 0` is exactly the `StatisticsError` case of `path_average_weight`. -/
def wCnt (g : DiGraph) (path : List Node) : Nat :=
  (inducedEdges g path).length

/-- The selection loop of `solve_bubble`: starting from
`best_weight = -1`, `best_length = -1`, a path replaces the current best iff
its average weight is strictly greater, or equal with a strictly greater
node count (so the first path of a full tie wins).  The running best weight
is the exact fraction `bs/bc` (`bc > 0`); comparisons are performed by
cross-multiplication.  Returns `none` if some weight is undefined
(`StatisticsError` propagates). -/
def bestLexAux (g : DiGraph) :
    List (List Node) → List Node × Int × Nat × Int → Option (List Node × Int × Nat × Int)
  | [], st => some st
  | p :: ps, (bp, bs, bc, bl) =>
    let c := wCnt g p
    if c = 0 then none
    else
      let s := wSum g p
      if s * bc > bs * c ∨ (s * bc = bs * c ∧ (p.length : Int) > bl) then
        bestLexAux g ps (p, s, c, (p.length : Int))
      else
        bestLexAux g ps (bp, bs, bc, bl)

/-- The `(weight, length)` selection of `solve_bubble` over its path list
(`best_path = None` initially, modelled as `[]`, which no enumerated path
equals; `best_weight = -1` is the fraction `-1/1`). -/
def bestLex (g : DiGraph) (paths : List (List Node)) :
    Option (List Node × Int × Nat × Int) :=
  bestLexAux g paths ([], -1, 1, -1)

/-- `max(paths, key=path_average_weight)` (also
`path_weights.index(max(path_weights))` in `solve_entry_tips`): the first
path attaining the maximal average weight; *no* length tie-break.  `none`
models a propagating `StatisticsError`. -/
def bestByWeightAux (g : DiGraph) :
    List (List Node) → List Node × Int × Nat → Option (List Node)
  | [], (bp, _, _) => some bp
  | p :: ps, (bp, bs, bc) =>
    let c := wCnt g p
    if c = 0 then none
    else
      let s := wSum g p
      if s * bc > bs * c then bestByWeightAux g ps (p, s, c)
      else bestByWeightAux g ps (bp, bs, bc)

/-- First-maximum selection over a nonempty path list. -/
def bestByWeight (g : DiGraph) (paths : List (List Node)) : Option (List Node) :=
  match paths with
  | [] => none
  | p :: ps =>
    let c := wCnt g p
    if c = 0 then none
    else bestByWeightAux g ps (p, wSum g p, c)

/-- `path[1:-1]`: the interior of a path. -/
def pathInterior (p : List Node) : List Node :=
  (p.drop 1).dropLast

/-- `solve_bubble(graph, ancestor_node, descendant_node)`: enumerate all
simple paths between the two nodes; with at most one path return the graph
unchanged, otherwise keep the `(weight, length)`-best path and remove the
interior nodes of every other path (mutating as it goes;
`remove_nodes_from` ignores already-removed nodes). -/
def solve_bubble (g : DiGraph) (anc desc : Node) : DiGraph × Option PyErr :=
  let paths := all_simple_paths g anc desc
  if paths.length ≤ 1 then (g, none)
  else
    match bestLex g paths with
    | none => (g, some PyErr.statisticsError)
    | some (best, _, _, _) =>
      (paths.foldl
        (fun gg p => if p ≠ best then removeNodesFrom gg (pathInterior p) else gg) g,
       none)

/-- The `lowest_common_ancestor(graph, *predecessors)` call of
`simplify_bubbles` for 2 or 3 predecessors: Python binds the first two to
`node1`/`node2`; a third is bound to the keyword parameter `default`, which
is returned when no common ancestor exists (so with three predecessors the
call never yields `None`). -/
def lcaOfPreds (g : DiGraph) (preds : List Node) : Option Node :=
  match preds with
  | [p1, p2] => lowest_common_ancestor g p1 p2
  | [p1, p2, p3] =>
    match lowest_common_ancestor g p1 p2 with
    | some x => some x
    | none => some p3
  | _ => none

/-- The `for predecessor in predecessors: ... solve_bubble(graph, predecessor, node)`
loop of `simplify_bubbles`, threading the mutated graph and a propagating
exception. -/
def bubbleFold (g : DiGraph) (node lca : Node) (preds : List Node) :
    DiGraph × Option PyErr :=
  preds.foldl
    (fun (st : DiGraph × Option PyErr) pred =>
      match st with
      | (gg, some e) => (gg, some e)
      | (gg, none) => if pred ≠ lca then solve_bubble gg pred node else (gg, none))
    (g, none)

/-- The deferred-removal marking phase of `simplify_bubbles` for one
convergence node: the interior nodes of every simple path from the LCA to
the node other than the `max`-by-average-weight one are appended to
`nodes_to_remove`. -/
def bubbleMarks (g1 : DiGraph) (lca node : Node) (marks : List Node) :
    DiGraph × List Node × Option PyErr :=
  let paths := all_simple_paths g1 lca node
  if paths.isEmpty then (g1, marks, none)
  else
    match bestByWeight g1 paths with
    | none => (g1, marks, some PyErr.statisticsError)
    | some best =>
      (g1, marks ++ (paths.filter (fun p => p ≠ best)).flatMap pathInterior, none)

/-- Loop body of `simplify_bubbles` for one node of the iteration snapshot:
with more than one direct predecessor, call
`lowest_common_ancestor(graph, *predecessors)` (see `lcaOfPreds`; four or
more predecessors raise `TypeError`, and the LCA routine raises
`NetworkXError` on a non-acyclic graph), then run `solve_bubble` from every
predecessor other than the LCA (mutating the graph), and finally mark the
interior nodes of every non-best simple path from the LCA to the node for
deferred removal. -/
def simplifyBody (g : DiGraph) (marks : List Node) (node : Node) :
    DiGraph × List Node × Option PyErr :=
  let preds := predecessors g node
  if preds.length ≤ 1 then (g, marks, none)
  else if 4 ≤ preds.length then (g, marks, some PyErr.typeError)
  else if ¬ isDag g then (g, marks, some PyErr.networkXError)
  else
    match lcaOfPreds g preds with
    | none => (g, marks, none)
    | some lca =>
      match bubbleFold g node lca preds with
      | (g1, some e) => (g1, marks, some e)
      | (g1, none) => bubbleMarks g1 lca node marks

/-- `simplify_bubbles(graph)`: one pass over `graph.nodes()` — a live dict
view, so any node removal performed inside the loop (by `solve_bubble`)
makes the next iterator step raise
`RuntimeError: dictionary changed size during iteration`; the node-size
check after each body models exactly that.  Nodes marked during the pass
are removed together after the loop (`remove_nodes_from(set(...))`).
Returns the graph state reached, plus the exception if one propagated. -/
def simplify_bubbles (g0 : DiGraph) : DiGraph × Option PyErr :=
  let n0 := g0.nodes.length
  let res := g0.nodes.foldl
    (fun (st : DiGraph × List Node × Option PyErr) node =>
      match st with
      | (g, marks, some e) => (g, marks, some e)
      | (g, marks, none) =>
        match simplifyBody g marks node with
        | (g1, marks1, some e) => (g1, marks1, some e)
        | (g1, marks1, none) =>
          if g1.nodes.length ≠ n0 then (g1, marks1, some PyErr.runtimeError)
          else (g1, marks1, none))
    (g0, ([] : List Node), none)
  match res with
  | (g, _, some e) => (g, some e)
  | (g, marks, none) => (removeNodesFrom g marks, none)

/-- `solve_entry_tips(graph, starting_nodes)`: for each starting node with
exactly one successor whose successor has more than one predecessor,
enumerate the simple paths from the node to that successor, keep the one of
maximal average weight (`path_weights.index(max(path_weights))`, i.e. first
maximum, no length tie-break) and mark the interiors of the rest; all marks
are removed together after the loop.  The graph is never mutated during the
loop.  A starting node absent from the graph makes `G.successors` raise
`NetworkXError`. -/
def solve_entry_tips (g0 : DiGraph) (starting_nodes : List Node) :
    DiGraph × Option PyErr :=
  let res := starting_nodes.foldl
    (fun (st : List Node × Option PyErr) node =>
      match st with
      | (marks, some e) => (marks, some e)
      | (marks, none) =>
        if node ∉ g0.nodes then (marks, some PyErr.networkXError)
        else
          match successors g0 node with
          | [succ] =>
            if (predecessors g0 succ).length ≤ 1 then (marks, none)
            else
              let paths := all_simple_paths g0 node succ
              if paths.isEmpty then (marks, none)
              else if paths.any (fun p => wCnt g0 p = 0) then
                (marks, some PyErr.statisticsError)
              else
                match bestByWeight g0 paths with
                | none => (marks, some PyErr.statisticsError)
                | some best =>
                  (marks ++ (paths.filter (fun p => p ≠ best)).flatMap pathInterior, none)
          | _ => (marks, none))
    (([] : List Node), none)
  match res with
  | (marks, none) => (removeNodesFrom g0 marks, none)
  | (_, some e) => (g0, some e)

/-- `solve_out_tips(graph, ending_nodes)`: the body is a bare `pass`, so the
function performs no graph operation at all and returns Python `None`. -/
def solve_out_tips (_g : DiGraph) (_ending_nodes : List Node) : Option DiGraph :=
  none

/-- `remove_paths(graph, path_list, delete_entry_node, delete_sink_node)`:
paths with fewer than 2 nodes are skipped (`continue`); otherwise the slice
`path[start:end]` (keeping the entry node unless `delete_entry_node`, the
sink node unless `delete_sink_node`) is removed node by node with
`graph.remove_node`, which raises `NetworkXError` on a missing node. -/
def remove_paths (g0 : DiGraph) (path_list : List (List Node))
    (delete_entry_node delete_sink_node : Bool) : DiGraph × Option PyErr :=
  path_list.foldl
    (fun (st : DiGraph × Option PyErr) path =>
      match st with
      | (g, some e) => (g, some e)
      | (g, none) =>
        if path.length < 2 then (g, none)
        else
          let seg0 := if delete_sink_node then path else path.dropLast
          let seg := if delete_entry_node then seg0 else seg0.drop 1
          seg.foldl
            (fun (st2 : DiGraph × Option PyErr) node =>
              match st2 with
              | (gg, some e) => (gg, some e)
              | (gg, none) =>
                if node ∈ gg.nodes then (removeNode gg node, none)
                else (gg, some PyErr.networkXError))
            (g, none))
    (g0, none)

/-- `cut_kmer(read, kmer_size)`: the sliding-window k-mers
`read[i:i+kmer_size]` for `i in range(len(read) - kmer_size + 1)`
(`read.length + 1 - kmer_size` is the Python `max(0, len - k + 1)`). -/
def cut_kmer (read : List Char) (kmer_size : Nat) : List (List Char) :=
  (List.range (read.length + 1 - kmer_size)).map
    (fun i => (read.drop i).take kmer_size)

/-- One `kmer_dict` update: increment in place if the key exists (dict
order is preserved), otherwise append with count 1. -/
def insertKmer (d : List (List Char × Nat)) (kmer : List Char) :
    List (List Char × Nat) :=
  if d.any (fun e => e.1 = kmer) then
    d.map (fun e => if e.1 = kmer then (e.1, e.2 + 1) else e)
  else d ++ [(kmer, 1)]

/-- `build_kmer_dict`: occurrence counts of all k-mers over the reads, as
an insertion-ordered association list (a Python dict).  Reading the reads
out of the fastq file is I/O outside the core; the reads are taken here as
an already-extracted list. -/
def build_kmer_dict (reads : List (List Char)) (kmer_size : Nat) :
    List (List Char × Nat) :=
  reads.foldl (fun d read => (cut_kmer read kmer_size).foldl insertKmer d) []

/-- `build_graph(kmer_dict)`: one edge `kmer[:-1] → kmer[1:]` per k-mer,
weighted by its count, inserted in dict order. -/
def build_graph (kmer_dict : List (List Char × Nat)) : DiGraph :=
  kmer_dict.foldl
    (fun g e => add_edge g (e.1.take (e.1.length - 1)) (e.1.drop 1) e.2)
    ⟨[], []⟩

/-- `get_starting_nodes(graph)`: nodes without predecessors, in node order. -/
def get_starting_nodes (g : DiGraph) : List Node :=
  g.nodes.filter (fun n => in_degree g n = 0)

/-- `get_sink_nodes(graph)`: nodes without successors, in node order. -/
def get_sink_nodes (g : DiGraph) : List Node :=
  g.nodes.filter (fun n => out_degree g n = 0)

/-- `node[-1]` as used by `get_contigs`; Python would raise `IndexError` on
an empty node string, which cannot occur for the (k−1)-mers (k ≥ 2) this
program builds, so the empty case is mapped to the neutral element. -/
def lastChar (n : Node) : List Char :=
  match n.getLast? with
  | some c => [c]
  | none => []

/-- The contig accumulation loop of `get_contigs`:
`contig = path[0]; for node in path[1:]: contig += node[-1]`. -/
def contigOfPath (p : List Node) : List Char :=
  match p with
  | [] => []
  | h :: t => t.foldl (fun acc node => acc ++ lastChar node) h

/-- `get_contigs(graph, starting_nodes, ending_nodes)`: for every
source/sink pair connected by a path, one `(sequence, length)` entry per
simple path between them. -/
def get_contigs (g : DiGraph) (starting_nodes ending_nodes : List Node) :
    List (List Char × Nat) :=
  starting_nodes.flatMap (fun s =>
    ending_nodes.flatMap (fun e =>
      if hasPathB g s e then
        (all_simple_paths g s e).map (fun p => (contigOfPath p, (contigOfPath p).length))
      else []))

/-- Modelled from the spec (§4.6): "reconstruct the represented sequence by
concatenating the source node's full string followed by the last character
of every subsequent node".  Used to compare the code's contig accumulation
loop against the spec's wording. -/
def reconstructSpec (p : List Node) : List Char :=
  match p with
  | [] => []
  | h :: t => h ++ t.flatMap lastChar

/-- Modelled from the spec (§4.3): "`path_average_weight(graph, path)`:
mean of edge weights along consecutive path nodes" — the mean over exactly
the edges joining consecutive nodes of the path, failing when there are no
such edges.  Used to compare the code's induced-subgraph mean against the
spec's wording. -/
def consecutivePairs : List Node → List (Node × Node)
  | a :: b :: t => (a, b) :: consecutivePairs (b :: t)
  | _ => []

/-- Spec-side average weight over consecutive edges only (see
`consecutivePairs`). -/
def path_average_weight_spec (g : DiGraph) (path : List Node) : Option ℚ :=
  let es := g.edges.filter (fun e => (e.1, e.2.1) ∈ consecutivePairs path)
  if es.isEmpty then none
  else some (((es.map (fun e => (e.2.2 : ℚ))).sum) / es.length)

/-- The list of `(k−1)`-length windows of a read, shifted by one position:
these are exactly the graph nodes a single read produces.  Recursive
formulation of `cut_kmer read (w)`, convenient for induction. -/
def windows (w : Nat) (l : List Char) : List (List Char) :=
  if _h : 1 ≤ w ∧ w ≤ l.length then l.take w :: windows w (l.drop 1) else []
termination_by l.length
decreasing_by
  simp only [List.length_drop]
  omega

/-- Cyclic graph used to witness C8: `a → b → a` plus `b → c`. -/
def GraphCyc : DiGraph :=
  ⟨[['a'], ['b'], ['c']], [(['a'], ['b'], 1), (['b'], ['a'], 1), (['b'], ['c'], 1)]⟩

/-! ### Removal-only invariant of the simplification operations -/

/-- `g'` is a weighted subgraph of `g`: every node of `g'` is a node of
`g`, and every edge of `g'` — weight included — is an edge of `g`. -/
def SubG (g' g : DiGraph) : Prop :=
  (∀ n ∈ g'.nodes, n ∈ g.nodes) ∧ (∀ e ∈ g'.edges, e ∈ g.edges)

/-- Graph used to witness C10. -/
def GraphC10 : DiGraph := ⟨[['a'], ['b']], [(['a'], ['b'], 1)]⟩

/-! ### Exit-tip removal is not implemented -/

/-- Failing input for C3: `s → a` with weight 10, `a → t1` with weight 10
and `a → t2` with weight 1; `t2` is a sink whose single predecessor `a` has
two successors, so exit-tip removal must prune the weaker branch to `t2`. -/
def GraphOut : DiGraph :=
  ⟨[['s'], ['a'], ['t','1'], ['t','2']],
   [(['s'], ['a'], 10), (['a'], ['t','1'], 10), (['a'], ['t','2'], 1)]⟩

/-! ### Bubble resolution deletes nodes of a winning path -/

/-- Failing input for C2: two bubbles that share the node `m`.  The bubble
converging at `c1` (paths `s→m→c1` of average weight 10 and `s→n→c1` of
average weight 1) is won by `s→m→c1`; the bubble converging at `c2` (paths
`s→m→c2` of average weight 11/2 and `s→y→c2` of average weight 10) is lost
by `s→m→c2`, whose interior is `m`. -/
def GraphC2 : DiGraph :=
  ⟨[['s'], ['m'], ['n'], ['c','1'], ['y'], ['c','2']],
   [(['s'], ['m'], 10), (['s'], ['n'], 1), (['m'], ['c','1'], 10), (['n'], ['c','1'], 1),
    (['s'], ['y'], 10), (['y'], ['c','2'], 10), (['m'], ['c','2'], 1)]⟩

/-! ### A second bubble pass can remove further nodes -/

/-- Failing input for C7: a bubble at `c` between `a`-side and `b`-side
(`r→s→a→c` vs `r→s→b→c`) plus an independent branch `r→d→c`.  The first
pass sees predecessors `[a, b, d]` of `c`, computes the LCA `s` of the
first two, and removes `b`; only then does `r` become the LCA of the
remaining predecessors `[a, d]`, exposing the second bubble
`r→s→a→c` vs `r→d→c`. -/
def GraphC7 : DiGraph :=
  ⟨[['r'], ['s'], ['a'], ['b'], ['c'], ['d']],
   [(['r'], ['s'], 2), (['s'], ['a'], 5), (['s'], ['b'], 1), (['a'], ['c'], 5),
    (['b'], ['c'], 1), (['r'], ['d'], 6), (['d'], ['c'], 6)]⟩

/-- Failing input for C5: the tip `s1 → m` (weight 1) competes with
`s2 → m` (weight 10) into the convergence node `m`; the claim requires the
strictly weaker source `s1` to be removed entirely. -/
def GraphTip : DiGraph :=
  ⟨[['s','1'], ['m'], ['s','2'], ['t']],
   [(['s','1'], ['m'], 1), (['s','2'], ['m'], 10), (['m'], ['t'], 5)]⟩

/-- Lexicographic "at least as good": strictly larger weight, or equal
weight with at least the length. -/
def LexGE (w1 : ℚ) (l1 : Int) (w2 : ℚ) (l2 : Int) : Prop :=
  w2 < w1 ∨ (w1 = w2 ∧ l2 ≤ l1)

/-- Counterexample input for C4: the bubble `s→c` (weight 2) vs `s→a→c`
(weights 2, 2).  Both enumerated paths have average weight exactly 2 — the
induced subgraph of `[s, a, c]` contains the chord `s→c` as well — an
exact tie, which the claim says the longer path `[s, a, c]` must win. -/
def GraphC4 : DiGraph :=
  ⟨[['s'], ['c'], ['a']], [(['s'], ['c'], 2), (['s'], ['a'], 2), (['a'], ['c'], 2)]⟩

/-- Counterexample input for C6 (chord): `s→c` (weight 8) is a chord of the
genuine path `s→a→c` (weights 2, 2). -/
def GraphC6 : DiGraph :=
  ⟨[['s'], ['c'], ['a']], [(['s'], ['c'], 8), (['s'], ['a'], 2), (['a'], ['c'], 2)]⟩

/-- Counterexample input for C6 (self-loop): a single node with a
self-loop of weight 3, as the k-mer `AAA` produces. -/
def GraphSelfLoop : DiGraph := ⟨[['x']], [(['x'], ['x'], 3)]⟩

/-- Chord-free graph used to witness C6: the path `s→a→c` with no chord. -/
def GraphChordFree : DiGraph :=
  ⟨[['s'], ['a'], ['c']], [(['s'], ['a'], 1), (['a'], ['c'], 3)]⟩

/-! ### Single-read pipeline: chain graphs -/

/-- The graph a single repeat-free read builds: its windows as nodes, one
weight-1 edge per consecutive pair. -/
def chainGraph (ns : List Node) : DiGraph :=
  ⟨ns, (consecutivePairs ns).map (fun q => (q.1, q.2, 1))⟩

/-- Counterexample read for C1: `AACAA` with k = 3.  Its three 3-mers
`AAC`, `ACA`, `CAA` are pairwise distinct, but the 2-mer `AA` repeats, so
the graph is the cycle `AA → AC → CA → AA` with no source and no sink. -/
def ReadAACAA : List Char := ['A', 'A', 'C', 'A', 'A']

/-- Witness read for C1: the spec's own example `TATAAT` with k = 4. -/
def ReadTATAAT : List Char := ['T', 'A', 'T', 'A', 'A', 'T']

/-! ### Soundness of simple-path enumeration -/

theorem allSimplePathsAux_sound (g : DiGraph) (t : Node) :
    ∀ (fuel : Nat) (u : Node) (visited : List Node), u ∈ visited →
      ∀ p ∈ allSimplePathsAux g t fuel u visited,
        p.head? = some u ∧ p.Nodup ∧ (∀ x ∈ p.tail, x ∉ visited) ∧
        p.length ≤ fuel + 1 := by
  intro fuel
  induction fuel with
  | zero =>
    intro u visited _ p hp
    rw [allSimplePathsAux] at hp
    by_cases hut : u = t
    · simp only [if_pos hut, List.mem_singleton] at hp
      subst hp
      simp
    · simp [if_neg hut] at hp
  | succ f ih =>
    intro u visited hu p hp
    rw [allSimplePathsAux] at hp
    by_cases hut : u = t
    · simp only [if_pos hut, List.mem_singleton] at hp
      subst hp
      simp
    · simp only [if_neg hut, List.mem_flatMap, List.mem_filter, List.mem_map] at hp
      obtain ⟨v, ⟨hvsucc, hvvis⟩, q, hq, rfl⟩ := hp
      have hvvis' : v ∉ visited := by
        simpa using hvvis
      have hq' := ih v (v :: visited) (List.mem_cons_self v visited) q hq
      obtain ⟨hhead, hnd, htail, hlen⟩ := hq'
      have hqne : q ≠ [] := by
        intro h
        rw [h] at hhead
        simp at hhead
      have huq : u ∉ q := by
        intro huq
        rcases q with _ | ⟨qh, qt⟩
        · exact hqne rfl
        · have hqh : qh = v := by
            simpa using hhead
          rcases List.mem_cons.mp huq with h1 | h2
          · rw [h1, hqh] at hu
            exact hvvis' hu
          · exact (htail u h2) (List.mem_cons_of_mem _ hu)
      refine ⟨by simp, List.nodup_cons.mpr ⟨huq, hnd⟩, ?_, ?_⟩
      · intro x hx
        simp only [List.tail_cons] at hx
        rcases q with _ | ⟨qh, qt⟩
        · exact absurd rfl hqne
        · have hqh : qh = v := by simpa using hhead
          rcases List.mem_cons.mp hx with h1 | h2
          · subst h1
            exact hqh ▸ hvvis'
          · intro hxv
            exact (htail _ h2) (List.mem_cons_of_mem _ hxv)
      · simpa using Nat.succ_le_succ hlen

/-- C8: simple-path enumeration terminates on every finite graph, cyclic or
not: `all_simple_paths` is a total function returning a finite list, every
returned path is simple (no repeated node), and its length is bounded by
the number of graph nodes plus one, which is what guarantees the DFS cannot
loop. -/
theorem C8_simple_paths_terminate (g : DiGraph) (s t : Node) (p : List Node)
    (hp : p ∈ all_simple_paths g s t) :
    p.Nodup ∧ p.length ≤ g.nodes.length + 1 := by
  have h := allSimplePathsAux_sound g t g.nodes.length s [s]
    (List.mem_singleton_self s) p hp
  exact ⟨h.2.1, h.2.2.2⟩

theorem C8_simple_paths_terminate_witness :
    [['a'], ['b'], ['c']] ∈ all_simple_paths GraphCyc ['a'] ['c'] ∧
    ([['a'], ['b'], ['c']] : List Node).Nodup ∧
    ([['a'], ['b'], ['c']] : List Node).length ≤ GraphCyc.nodes.length + 1 := by
  refine ⟨by decide, ?_⟩
  exact C8_simple_paths_terminate GraphCyc ['a'] ['c'] [['a'], ['b'], ['c']] (by decide)

theorem SubG_refl (g : DiGraph) : SubG g g :=
  ⟨fun _ h => h, fun _ h => h⟩

theorem SubG_trans {g1 g2 g3 : DiGraph} (h12 : SubG g1 g2) (h23 : SubG g2 g3) :
    SubG g1 g3 :=
  ⟨fun n h => h23.1 n (h12.1 n h), fun e h => h23.2 e (h12.2 e h)⟩

theorem removeNode_subG (g : DiGraph) (n : Node) : SubG (removeNode g n) g := by
  constructor
  · intro x hx
    exact (List.mem_filter.mp hx).1
  · intro e he
    exact (List.mem_filter.mp he).1

theorem removeNodesFrom_subG (g : DiGraph) (ns : List Node) :
    SubG (removeNodesFrom g ns) g := by
  constructor
  · intro x hx
    exact (List.mem_filter.mp hx).1
  · intro e he
    exact (List.mem_filter.mp he).1

/-- Fold preservation: if every step keeps a property of the state, the
whole `foldl` does. -/
theorem foldl_pres {σ α : Type} (P : σ → Prop) (f : σ → α → σ)
    (hf : ∀ s a, P s → P (f s a)) :
    ∀ (l : List α) (s : σ), P s → P (List.foldl f s l) := by
  intro l
  induction l with
  | nil => intro s hs; exact hs
  | cons a l ih => intro s hs; exact ih (f s a) (hf s a hs)

theorem solve_bubble_subG (g : DiGraph) (anc desc : Node) :
    SubG (solve_bubble g anc desc).1 g := by
  rw [solve_bubble]
  by_cases hle : (all_simple_paths g anc desc).length ≤ 1
  · simp only [if_pos hle]
    exact SubG_refl g
  · simp only [if_neg hle]
    rcases hb : bestLex g (all_simple_paths g anc desc) with _ | ⟨best, bs, bc, bl⟩
    · exact SubG_refl g
    · refine foldl_pres (fun gg => SubG gg g) _ ?_ _ g (SubG_refl g)
      intro gg p hgg
      by_cases hp : p ≠ best
      · simp only [if_pos hp]
        exact SubG_trans (removeNodesFrom_subG gg (pathInterior p)) hgg
      · simp only [if_neg hp]
        exact hgg

theorem bubbleFold_subG (g : DiGraph) (node lca : Node) (preds : List Node) :
    SubG (bubbleFold g node lca preds).1 g := by
  refine (foldl_pres (fun (st : DiGraph × Option PyErr) => SubG st.1 g) _ ?_ _ (g, none)
    (SubG_refl g))
  intro st a hst
  rcases st with ⟨gg, _ | e⟩
  · by_cases ha : a ≠ lca
    · simp only [if_pos ha]
      exact SubG_trans (solve_bubble_subG gg a node) hst
    · simp only [if_neg ha]
      exact hst
  · exact hst

theorem bubbleMarks_graph (g1 : DiGraph) (lca node : Node) (marks : List Node) :
    (bubbleMarks g1 lca node marks).1 = g1 := by
  rw [bubbleMarks]
  split
  · rfl
  split
  · rfl
  · rfl

theorem simplifyBody_subG (g : DiGraph) (marks : List Node) (node : Node) :
    SubG (simplifyBody g marks node).1 g := by
  rw [simplifyBody]
  split
  · exact SubG_refl g
  split
  · exact SubG_refl g
  split
  · exact SubG_refl g
  split
  · exact SubG_refl g
  rename_i lca hlca
  split
  · rename_i g1 e heq
    have h := bubbleFold_subG g node lca (predecessors g node)
    rw [heq] at h
    exact h
  · rename_i g1 heq
    have h := bubbleFold_subG g node lca (predecessors g node)
    rw [heq] at h
    rw [bubbleMarks_graph]
    exact h

theorem simplify_bubbles_subG (g0 : DiGraph) : SubG (simplify_bubbles g0).1 g0 := by
  rw [simplify_bubbles]
  have hfold : SubG (g0.nodes.foldl
      (fun (st : DiGraph × List Node × Option PyErr) node =>
        match st with
        | (g, marks, some e) => (g, marks, some e)
        | (g, marks, none) =>
          match simplifyBody g marks node with
          | (g1, marks1, some e) => (g1, marks1, some e)
          | (g1, marks1, none) =>
            if g1.nodes.length ≠ g0.nodes.length then (g1, marks1, some PyErr.runtimeError)
            else (g1, marks1, none))
      (g0, ([] : List Node), none)).1 g0 := by
    refine (foldl_pres (fun (st : DiGraph × List Node × Option PyErr) => SubG st.1 g0)
      _ ?_ _ (g0, ([] : List Node), none) (SubG_refl g0))
    intro st a hst
    rcases st with ⟨g, marks, _ | e⟩
    · have hb := simplifyBody_subG g marks a
      rcases hsb : simplifyBody g marks a with ⟨g1, marks1, _ | e⟩
      · rw [hsb] at hb
        simp only [hsb]
        by_cases hlen : g1.nodes.length ≠ g0.nodes.length
        · simp only [if_pos hlen]
          exact SubG_trans hb hst
        · simp only [if_neg hlen]
          exact SubG_trans hb hst
      · rw [hsb] at hb
        simp only [hsb]
        exact SubG_trans hb hst
    · exact hst
  split
  · rename_i gr e heq
    rw [heq] at hfold
    exact hfold
  · rename_i gr marks heq
    rw [heq] at hfold
    exact SubG_trans (removeNodesFrom_subG gr marks) hfold

theorem solve_entry_tips_subG (g0 : DiGraph) (starts : List Node) :
    SubG (solve_entry_tips g0 starts).1 g0 := by
  rw [solve_entry_tips]
  split
  · rename_i marks heq
    exact removeNodesFrom_subG g0 marks
  · exact SubG_refl g0

theorem remove_paths_subG (g0 : DiGraph) (pl : List (List Node)) (de ds : Bool) :
    SubG (remove_paths g0 pl de ds).1 g0 := by
  rw [remove_paths]
  refine (foldl_pres (fun (st : DiGraph × Option PyErr) => SubG st.1 g0) _ ?_ _ (g0, none)
    (SubG_refl g0))
  intro st path hst
  rcases st with ⟨g, _ | e⟩
  · by_cases hlen : path.length < 2
    · simp only [if_pos hlen]
      exact hst
    · simp only [if_neg hlen]
      refine (foldl_pres (fun (st2 : DiGraph × Option PyErr) => SubG st2.1 g0) _ ?_ _ (g, none) hst)
      intro st2 node hst2
      rcases st2 with ⟨gg, _ | e⟩
      · by_cases hmem : node ∈ gg.nodes
        · simp only [if_pos hmem]
          exact SubG_trans (removeNode_subG gg node) hst2
        · simp only [if_neg hmem]
          exact hst2
      · exact hst2
  · exact hst

/-- C9: the simplification operations only remove: for every graph, the
graph state produced by `remove_paths`, `simplify_bubbles` and
`solve_entry_tips` (normal return or propagating exception alike) has its
node set and its edge set — each edge carrying its original weight —
contained in the input's, and `solve_out_tips` performs no graph operation
at all (its body is `pass`, returning Python `None`), so no call in any
sequence of these operations ever adds a node or an edge or rewrites a
surviving edge's weight. -/
theorem C9_removal_only :
    (∀ g pl de ds, SubG (remove_paths g pl de ds).1 g) ∧
    (∀ g, SubG (simplify_bubbles g).1 g) ∧
    (∀ g ss, SubG (solve_entry_tips g ss).1 g) ∧
    (∀ g es, solve_out_tips g es = none) :=
  ⟨remove_paths_subG, simplify_bubbles_subG, solve_entry_tips_subG, fun _ _ => rfl⟩

/-! ### Short paths are skipped by remove_paths -/

/-- Skipped elements can be dropped from a fold. -/
theorem foldl_filter_skip {σ α : Type} (f : σ → α → σ) (q : α → Bool)
    (h : ∀ s a, q a = false → f s a = s) :
    ∀ (l : List α) (s : σ), List.foldl f s l = List.foldl f s (l.filter q) := by
  intro l
  induction l with
  | nil => intro s; rfl
  | cons a l ih =>
    intro s
    by_cases hq : q a
    · rw [List.filter_cons_of_pos hq]
      simp only [List.foldl_cons]
      exact ih (f s a)
    · rw [List.filter_cons_of_neg (by simpa using hq)]
      simp only [List.foldl_cons]
      rw [h s a (by simpa using hq)]
      exact ih s

/-- C10: a path with fewer than 2 nodes is skipped by `remove_paths` before
any deletion (`continue`), whatever the two deletion flags are: removing a
singleton path list leaves the graph untouched, and in general the paths of
length < 2 can be dropped from the argument without changing the result. -/
theorem C10_short_paths_skipped :
    (∀ (g : DiGraph) (p : List Node) (de ds : Bool), p.length < 2 →
        remove_paths g [p] de ds = (g, none)) ∧
    (∀ (g : DiGraph) (pl : List (List Node)) (de ds : Bool),
        remove_paths g pl de ds =
          remove_paths g (pl.filter (fun p => 2 ≤ p.length)) de ds) := by
  have hstep : ∀ (de ds : Bool) (st : DiGraph × Option PyErr) (p : List Node),
      p.length < 2 →
      (fun (st : DiGraph × Option PyErr) path =>
        match st with
        | (g, some e) => (g, some e)
        | (g, none) =>
          if path.length < 2 then (g, none)
          else
            let seg0 := if ds then path else path.dropLast
            let seg := if de then seg0 else seg0.drop 1
            seg.foldl
              (fun (st2 : DiGraph × Option PyErr) node =>
                match st2 with
                | (gg, some e) => (gg, some e)
                | (gg, none) =>
                  if node ∈ gg.nodes then (removeNode gg node, none)
                  else (gg, some PyErr.networkXError))
              (g, none)) st p = st := by
    intro de ds st p hp
    rcases st with ⟨g, _ | e⟩
    · simp only [if_pos hp]
    · rfl
  constructor
  · intro g p de ds hp
    rw [remove_paths]
    simp only [List.foldl_cons, List.foldl_nil]
    exact hstep de ds (g, none) p hp
  · intro g pl de ds
    rw [remove_paths, remove_paths]
    refine foldl_filter_skip _ (fun p => 2 ≤ p.length) ?_ pl (g, none)
    intro st p hq
    exact hstep de ds st p (by simpa using hq)

theorem C10_short_paths_skipped_witness :
    ([['a']] : List Node).length < 2 ∧
    remove_paths GraphC10 [[['a']]] true true = (GraphC10, none) :=
  ⟨by decide, C10_short_paths_skipped.1 GraphC10 [['a']] true true (by decide)⟩

/-- C3 evaluation at the failing input: `GraphOut` contains a textbook exit
tip — `t2` has out-degree 0, its only predecessor is the divergence point
`a`, and `a` has two competing outgoing branches — yet `solve_out_tips`
(whose body is the bare statement `pass`) performs no removal and returns
Python `None` instead of a graph. -/
theorem C3_solve_out_tips_eval :
    get_sink_nodes GraphOut = [['t','1'], ['t','2']] ∧
    out_degree GraphOut ['t','2'] = 0 ∧
    predecessors GraphOut ['t','2'] = [['a']] ∧
    (successors GraphOut ['a']).length = 2 ∧
    solve_out_tips GraphOut (get_sink_nodes GraphOut) = none := by
  decide

/-- C2 evaluation at the failing input: `c1` is a convergence node (two
predecessors) with closest common ancestor `s` (unique, so independent of
Python's set-iteration order), and the best path from `s` to `c1` — under
the `(weight, length)` rule and under weight alone — is `[s, m, c1]`.  The
claim therefore demands that `m` be kept.  The pass, however, removes the
node set `{m, n}` (no exception is raised): `m` is marked by the *other*
bubble (at `c2`), because all marks are deleted as one union after the
loop, so the winning path of the `c1` bubble is destroyed. -/
theorem C2_winning_path_destroyed_eval :
    predecessors GraphC2 ['c','1'] = [['m'], ['n']] ∧
    lowest_common_ancestor GraphC2 ['m'] ['n'] = some ['s'] ∧
    bestLex GraphC2 (all_simple_paths GraphC2 ['s'] ['c','1']) =
      some ([['s'], ['m'], ['c','1']], 20, 2, 3) ∧
    bestByWeight GraphC2 (all_simple_paths GraphC2 ['s'] ['c','1']) =
      some [['s'], ['m'], ['c','1']] ∧
    simplify_bubbles GraphC2 =
      (⟨[['s'], ['c','1'], ['y'], ['c','2']], [(['s'], ['y'], 10), (['y'], ['c','2'], 10)]⟩,
       none) ∧
    ['m'] ∉ (simplify_bubbles GraphC2).1.nodes := by
  decide

/-- C7 evaluation at the failing input: `simplify_bubbles` makes a single
pass (there is no repeat-until-no-removal loop in the code), and applying
it a second time to its own output removes the further nodes `s` and `a` —
the stage is not idempotent and does not reach a fixed point. -/
theorem C7_not_idempotent_eval :
    simplify_bubbles GraphC7 =
      (⟨[['r'], ['s'], ['a'], ['c'], ['d']],
        [(['r'], ['s'], 2), (['s'], ['a'], 5), (['a'], ['c'], 5), (['r'], ['d'], 6),
         (['d'], ['c'], 6)]⟩, none) ∧
    simplify_bubbles (simplify_bubbles GraphC7).1 =
      (⟨[['r'], ['c'], ['d']], [(['r'], ['d'], 6), (['d'], ['c'], 6)]⟩, none) ∧
    (simplify_bubbles (simplify_bubbles GraphC7).1).1.nodes ≠
      (simplify_bubbles GraphC7).1.nodes := by
  decide

/-! ### Entry-tip trimming is a no-op -/

/-- A fold whose step fixes the state is the identity. -/
theorem foldl_fixed {σ α : Type} (f : σ → α → σ) (c : σ) :
    ∀ (l : List α), (∀ a ∈ l, f c a = c) → List.foldl f c l = c := by
  intro l
  induction l with
  | nil => intro _; rfl
  | cons a l ih =>
    intro h
    rw [List.foldl_cons, h a (List.mem_cons_self a l)]
    exact ih (fun b hb => h b (List.mem_cons_of_mem a hb))

/-- One-step unfolding of the DFS at positive fuel. -/
theorem allSimplePathsAux_succ (g : DiGraph) (t : Node) (f : Nat) (u : Node)
    (visited : List Node) :
    allSimplePathsAux g t (f + 1) u visited =
      if u = t then [[u]]
      else ((successors g u).filter (fun v => v ∉ visited)).flatMap
        (fun v => (allSimplePathsAux g t f v (v :: visited)).map (fun p => u :: p)) :=
  rfl

theorem successors_singleton_edge (g : DiGraph) (u v : Node)
    (hs : successors g u = [v]) : ∃ w, (u, v, w) ∈ g.edges := by
  rw [successors] at hs
  rcases hf : g.edges.filter (fun e => e.1 = u) with _ | ⟨e, rest⟩
  · rw [hf] at hs
    simp at hs
  · rw [hf] at hs
    simp only [List.map_cons, List.cons.injEq] at hs
    obtain ⟨hev, hrest⟩ := hs
    have hemem : e ∈ g.edges.filter (fun e => e.1 = u) := by
      rw [hf]; exact List.mem_cons_self e rest
    have := List.mem_filter.mp hemem
    refine ⟨e.2.2, ?_⟩
    have heu : e.1 = u := by simpa using this.2
    have : (u, v, e.2.2) = e := by
      rcases e with ⟨e1, e2, e3⟩
      simp only at heu hev
      rw [heu, hev]
    rw [this]
    exact (List.mem_filter.mp hemem).1

theorem wCnt_ne_zero_of_edge (g : DiGraph) (p : List Node) (a b : Node) (w : Nat)
    (he : (a, b, w) ∈ g.edges) (ha : a ∈ p) (hb : b ∈ p) : wCnt g p ≠ 0 := by
  rw [wCnt, inducedEdges]
  intro h
  rw [List.length_eq_zero] at h
  have : (a, b, w) ∈ g.edges.filter (fun e => e.1 ∈ p ∧ e.2.1 ∈ p) := by
    rw [List.mem_filter]
    exact ⟨he, by simp [ha, hb]⟩
  rw [h] at this
  exact absurd this (List.not_mem_nil _)

theorem all_simple_paths_succ_singleton (g : DiGraph) (u v : Node)
    (hs : successors g u = [v]) (hu : u ∈ g.nodes) :
    all_simple_paths g u v = if u = v then [[u]] else [[u, v]] := by
  by_cases huv : u = v
  · subst huv
    rw [if_pos rfl, all_simple_paths, allSimplePathsAux.eq_def]
    simp
  · rw [if_neg huv]
    obtain ⟨f, hf⟩ : ∃ f, g.nodes.length = f + 1 := by
      refine ⟨g.nodes.length - 1, ?_⟩
      have : g.nodes.length ≠ 0 := by
        intro h
        rw [List.length_eq_zero] at h
        rw [h] at hu
        exact absurd hu (List.not_mem_nil u)
      omega
    rw [all_simple_paths, hf, allSimplePathsAux_succ]
    simp only [if_neg huv, hs]
    have hfil : ([v].filter (fun x => decide (x ∉ [u]))) = [v] := by
      simp only [List.filter_cons, List.filter_nil]
      rw [if_pos (by
        simp only [List.mem_singleton, decide_eq_true_eq]
        exact fun h => huv h.symm)]
    rw [hfil]
    simp only [List.flatMap_cons, List.flatMap_nil, List.append_nil]
    rcases f with _ | f2
    · rw [allSimplePathsAux]
      simp
    · rw [allSimplePathsAux_succ]
      simp

theorem bestByWeight_singleton (g : DiGraph) (p : List Node)
    (hc : wCnt g p ≠ 0) : bestByWeight g [p] = some p := by
  rw [bestByWeight]
  simp only [if_neg hc]
  rfl

theorem removeNodesFrom_nil (g : DiGraph) : removeNodesFrom g [] = g := by
  rcases g with ⟨ns, es⟩
  rw [removeNodesFrom]
  simp

/-- C5: `solve_entry_tips` removes nothing, ever.  Whenever a starting node
has exactly one successor `succ`, every simple path from it to `succ` must
leave through `succ` immediately, so the enumerated path list is a
singleton (the direct edge — or the trivial path for a self-loop); the
single path is always the best path, no interior is ever marked, and the
function returns the unchanged graph.  In particular the low-weight tip
the claim requires to be deleted survives. -/
theorem C5_entry_tips_noop (g0 : DiGraph) (starts : List Node)
    (hmem : ∀ n ∈ starts, n ∈ g0.nodes) :
    solve_entry_tips g0 starts = (g0, none) := by
  rw [solve_entry_tips]
  have hfold : starts.foldl
      (fun (st : List Node × Option PyErr) node =>
        match st with
        | (marks, some e) => (marks, some e)
        | (marks, none) =>
          if node ∉ g0.nodes then (marks, some PyErr.networkXError)
          else
            match successors g0 node with
            | [succ] =>
              if (predecessors g0 succ).length ≤ 1 then (marks, none)
              else
                let paths := all_simple_paths g0 node succ
                if paths.isEmpty then (marks, none)
                else if paths.any (fun p => wCnt g0 p = 0) then
                  (marks, some PyErr.statisticsError)
                else
                  match bestByWeight g0 paths with
                  | none => (marks, some PyErr.statisticsError)
                  | some best =>
                    (marks ++ (paths.filter (fun p => p ≠ best)).flatMap pathInterior, none)
            | _ => (marks, none))
      (([] : List Node), none) = (([] : List Node), none) := by
    refine foldl_fixed _ _ starts ?_
    intro a ha
    have hag : a ∈ g0.nodes := hmem a ha
    show (if a ∉ g0.nodes then (([] : List Node), some PyErr.networkXError)
      else
        match successors g0 a with
        | [succ] =>
          if (predecessors g0 succ).length ≤ 1 then (([] : List Node), none)
          else
            let paths := all_simple_paths g0 a succ
            if paths.isEmpty then (([] : List Node), none)
            else if paths.any (fun p => wCnt g0 p = 0) then
              (([] : List Node), some PyErr.statisticsError)
            else
              match bestByWeight g0 paths with
              | none => (([] : List Node), some PyErr.statisticsError)
              | some best =>
                ((([] : List Node)) ++ (paths.filter (fun p => p ≠ best)).flatMap pathInterior,
                 none)
        | _ => (([] : List Node), none)) = (([] : List Node), none)
    rw [if_neg (by simpa using hag)]
    rcases hsucc : successors g0 a with _ | ⟨v, _ | ⟨v2, rest⟩⟩
    · rfl
    · -- exactly one successor
      by_cases hpred : (predecessors g0 v).length ≤ 1
      · simp only [if_pos hpred]
      · simp only [if_neg hpred]
        have hpaths := all_simple_paths_succ_singleton g0 a v hsucc hag
        obtain ⟨w, hw⟩ := successors_singleton_edge g0 a v hsucc
        by_cases hav : a = v
        · subst hav
          rw [if_pos rfl] at hpaths
          simp only [hpaths]
          have hcnt : wCnt g0 [a] ≠ 0 :=
            wCnt_ne_zero_of_edge g0 [a] a a w hw (by simp) (by simp)
          simp only [List.isEmpty_cons, List.any_cons, List.any_nil, Bool.or_false,
            if_neg, Bool.false_eq_true, not_false_eq_true]
          rw [if_neg (by simpa using hcnt)]
          rw [bestByWeight_singleton g0 [a] hcnt]
          simp
        · rw [if_neg hav] at hpaths
          simp only [hpaths]
          have hcnt : wCnt g0 [a, v] ≠ 0 :=
            wCnt_ne_zero_of_edge g0 [a, v] a v w hw (by simp) (by simp)
          simp only [List.isEmpty_cons, List.any_cons, List.any_nil, Bool.or_false,
            if_neg, Bool.false_eq_true, not_false_eq_true]
          rw [if_neg (by simpa using hcnt)]
          rw [bestByWeight_singleton g0 [a, v] hcnt]
          simp
    · rfl
  rw [hfold]
  simp only []
  rw [removeNodesFrom_nil]

theorem C5_entry_tips_noop_witness :
    (∀ n ∈ get_starting_nodes GraphTip, n ∈ GraphTip.nodes) ∧
    solve_entry_tips GraphTip (get_starting_nodes GraphTip) = (GraphTip, none) :=
  ⟨by decide, C5_entry_tips_noop GraphTip (get_starting_nodes GraphTip) (by decide)⟩

/-! ### The two selection policies -/

/-- The exact rational mean represented by the `(wSum, wCnt)` pair. -/
theorem path_average_weight_eq_frac (g : DiGraph) (p : List Node)
    (hc : wCnt g p ≠ 0) :
    path_average_weight g p = some ((wSum g p : ℚ) / (wCnt g p : ℚ)) := by
  rw [wCnt] at hc
  rw [path_average_weight, wSum, wCnt]
  have hne : ¬ (inducedEdges g p).isEmpty := by
    intro h
    rw [List.isEmpty_iff_length_eq_zero] at h
    exact hc h
  simp only [if_neg hne]
  congr 1
  have : ∀ (l : List (Node × Node × Nat)),
      (l.map (fun e => ((e.2.2 : Nat) : ℚ))).sum = ((l.map (fun e => (e.2.2 : Int))).sum : ℚ) := by
    intro l
    induction l with
    | nil => simp
    | cons e l ih => simp [ih]
  rw [this]

theorem path_average_weight_nonneg (g : DiGraph) (p : List Node) (w : ℚ)
    (h : path_average_weight g p = some w) : 0 ≤ w := by
  rw [path_average_weight] at h
  rcases hne : (inducedEdges g p).isEmpty with _ | _
  · rw [if_neg (by simp [hne])] at h
    have hsum : 0 ≤ ((inducedEdges g p).map (fun e => ((e.2.2 : Nat) : ℚ))).sum := by
      apply List.sum_nonneg
      intro x hx
      obtain ⟨e, _, rfl⟩ := List.mem_map.mp hx
      positivity
    have hlen : (0 : ℚ) ≤ ((inducedEdges g p).length : ℚ) := by positivity
    have := Option.some_injective _ h
    rw [← this]
    positivity
  · rw [if_pos (by simp [hne])] at h
    exact absurd h (by simp)

theorem frac_lt_iff (s1 : Int) (c1 : Nat) (s2 : Int) (c2 : Nat)
    (h1 : c1 ≠ 0) (h2 : c2 ≠ 0) :
    ((s1 : ℚ) / c1 < (s2 : ℚ) / c2) ↔ s1 * c2 < s2 * c1 := by
  have hc1 : (0 : ℚ) < (c1 : ℚ) := by
    exact_mod_cast Nat.pos_of_ne_zero h1
  have hc2 : (0 : ℚ) < (c2 : ℚ) := by
    exact_mod_cast Nat.pos_of_ne_zero h2
  rw [div_lt_div_iff₀ hc1 hc2]
  constructor
  · intro h
    exact_mod_cast h
  · intro h
    exact_mod_cast h

theorem frac_eq_iff (s1 : Int) (c1 : Nat) (s2 : Int) (c2 : Nat)
    (h1 : c1 ≠ 0) (h2 : c2 ≠ 0) :
    ((s1 : ℚ) / c1 = (s2 : ℚ) / c2) ↔ s1 * c2 = s2 * c1 := by
  have hc1 : ((c1 : ℚ)) ≠ 0 := by
    exact_mod_cast h1
  have hc2 : ((c2 : ℚ)) ≠ 0 := by
    exact_mod_cast h2
  rw [div_eq_div_iff hc1 hc2]
  constructor
  · intro h
    exact_mod_cast h
  · intro h
    exact_mod_cast h

theorem LexGE_refl (w : ℚ) (l : Int) : LexGE w l w l := Or.inr ⟨Eq.refl w, le_refl l⟩

theorem LexGE_trans {w1 l1 w2 l2 w3 l3} (h12 : LexGE w1 l1 w2 l2)
    (h23 : LexGE w2 l2 w3 l3) : LexGE w1 l1 w3 l3 := by
  rcases h12 with h | ⟨he, hl⟩
  · rcases h23 with h' | ⟨he', hl'⟩
    · exact Or.inl (lt_trans h' h)
    · exact Or.inl (he' ▸ h)
  · rcases h23 with h' | ⟨he', hl'⟩
    · exact Or.inl (he ▸ h')
    · exact Or.inr ⟨he.trans he', hl'.trans hl⟩

/-- Invariant of the `solve_bubble` selection loop: the returned candidate
is either the initial one (with its recorded weight fraction and length)
or one of the processed paths (with its own weight fraction and length),
every processed path has a defined average weight, and the returned
candidate is lexicographically at least as good — strictly better average
weight, or equal weight and at least the length — as the initial candidate
and as every processed path. -/
theorem bestLexAux_spec (g : DiGraph) :
    ∀ (ps : List (List Node)) (bp : List Node) (bs : Int) (bc : Nat) (bl : Int)
      (best : List Node) (s : Int) (c : Nat) (l : Int),
      bc ≠ 0 →
      bestLexAux g ps (bp, bs, bc, bl) = some (best, s, c, l) →
      c ≠ 0 ∧
      ((best = bp ∧ s = bs ∧ c = bc ∧ l = bl) ∨
        (best ∈ ps ∧ wSum g best = s ∧ wCnt g best = c ∧ (best.length : Int) = l)) ∧
      LexGE ((s : ℚ) / c) l ((bs : ℚ) / bc) bl ∧
      (∀ p ∈ ps, wCnt g p ≠ 0 ∧
        LexGE ((s : ℚ) / c) l ((wSum g p : ℚ) / (wCnt g p)) p.length) := by
  intro ps
  induction ps with
  | nil =>
    intro bp bs bc bl best s c l hbc h
    rw [bestLexAux] at h
    injection h with h
    cases h
    exact ⟨hbc, Or.inl ⟨rfl, rfl, rfl, rfl⟩, LexGE_refl _ _, by simp⟩
  | cons p ps ih =>
    intro bp bs bc bl best s c l hbc h
    rw [bestLexAux] at h
    by_cases hc' : wCnt g p = 0
    · rw [if_pos hc'] at h
      exact absurd h (by simp)
    rw [if_neg hc'] at h
    by_cases hcond : wSum g p * bc > bs * (wCnt g p) ∨
        (wSum g p * bc = bs * (wCnt g p) ∧ (p.length : Int) > bl)
    · rw [if_pos hcond] at h
      have hres := ih p (wSum g p) (wCnt g p) (p.length) best s c l hc' h
      obtain ⟨hcz, hmem, hinit, hall⟩ := hres
      have hgep : LexGE ((s : ℚ) / c) l ((wSum g p : ℚ) / (wCnt g p)) p.length := hinit
      have hstep : LexGE ((wSum g p : ℚ) / (wCnt g p)) p.length ((bs : ℚ) / bc) bl := by
        rcases hcond with hgt | ⟨heq, hlen⟩
        · exact Or.inl ((frac_lt_iff bs bc (wSum g p) (wCnt g p) hbc hc').mpr hgt)
        · exact Or.inr ⟨(frac_eq_iff (wSum g p) (wCnt g p) bs bc hc' hbc).mpr heq,
            le_of_lt hlen⟩
      refine ⟨hcz, ?_, LexGE_trans hgep hstep, ?_⟩
      · rcases hmem with ⟨h1, h2, h3, h4⟩ | ⟨h1, h2⟩
        · exact Or.inr ⟨h1 ▸ List.mem_cons_self p ps, by rw [h1, h2], by rw [h1, h3],
            by rw [h1, h4]⟩
        · exact Or.inr ⟨List.mem_cons_of_mem p h1, h2⟩
      · intro q hq
        rcases List.mem_cons.mp hq with h1 | h1
        · subst h1
          exact ⟨hc', hgep⟩
        · exact hall q h1
    · rw [if_neg hcond] at h
      have hres := ih bp bs bc bl best s c l hbc h
      obtain ⟨hcz, hmem, hinit, hall⟩ := hres
      push_neg at hcond
      obtain ⟨hle, himp⟩ := hcond
      have hpworse : LexGE ((bs : ℚ) / bc) bl ((wSum g p : ℚ) / (wCnt g p)) p.length := by
        rcases lt_or_eq_of_le hle with hlt | heq
        · exact Or.inl ((frac_lt_iff (wSum g p) (wCnt g p) bs bc hc' hbc).mpr hlt)
        · exact Or.inr ⟨((frac_eq_iff bs bc (wSum g p) (wCnt g p) hbc hc').mpr heq.symm),
            himp heq⟩
      refine ⟨hcz, ?_, hinit, ?_⟩
      · rcases hmem with h1 | ⟨h1, h2⟩
        · exact Or.inl h1
        · exact Or.inr ⟨List.mem_cons_of_mem p h1, h2⟩
      · intro q hq
        rcases List.mem_cons.mp hq with h1 | h1
        · subst h1
          exact ⟨hc', LexGE_trans hinit hpworse⟩
        · exact hall q h1

/-- Invariant of the first-maximum (weight only) selection loop. -/
theorem bestByWeightAux_spec (g : DiGraph) :
    ∀ (ps : List (List Node)) (bp : List Node) (bs : Int) (bc : Nat)
      (best : List Node),
      bc ≠ 0 → wSum g bp = bs → wCnt g bp = bc →
      bestByWeightAux g ps (bp, bs, bc) = some best →
      (best = bp ∨ best ∈ ps) ∧ wCnt g best ≠ 0 ∧
      ((bs : ℚ) / bc ≤ (wSum g best : ℚ) / (wCnt g best)) ∧
      (∀ p ∈ ps, wCnt g p ≠ 0 ∧
        (wSum g p : ℚ) / (wCnt g p) ≤ (wSum g best : ℚ) / (wCnt g best)) := by
  intro ps
  induction ps with
  | nil =>
    intro bp bs bc best hbc hws hwc h
    rw [bestByWeightAux] at h
    injection h with h
    subst h
    rw [hws, hwc]
    exact ⟨Or.inl rfl, hbc, le_refl _, by simp⟩
  | cons p ps ih =>
    intro bp bs bc best hbc hws hwc h
    rw [bestByWeightAux] at h
    by_cases hc' : wCnt g p = 0
    · rw [if_pos hc'] at h
      exact absurd h (by simp)
    rw [if_neg hc'] at h
    by_cases hcond : wSum g p * bc > bs * (wCnt g p)
    · rw [if_pos hcond] at h
      have hres := ih p (wSum g p) (wCnt g p) best hc' rfl rfl h
      obtain ⟨hmem, hcz, hinit, hall⟩ := hres
      have hstep : (bs : ℚ) / bc < (wSum g p : ℚ) / (wCnt g p) :=
        (frac_lt_iff bs bc (wSum g p) (wCnt g p) hbc hc').mpr hcond
      refine ⟨?_, hcz, le_trans (le_of_lt hstep) hinit, ?_⟩
      · rcases hmem with h1 | h1
        · exact Or.inr (h1 ▸ List.mem_cons_self p ps)
        · exact Or.inr (List.mem_cons_of_mem p h1)
      · intro q hq
        rcases List.mem_cons.mp hq with h1 | h1
        · subst h1
          exact ⟨hc', hinit⟩
        · exact hall q h1
    · rw [if_neg hcond] at h
      have hres := ih bp bs bc best hbc hws hwc h
      obtain ⟨hmem, hcz, hinit, hall⟩ := hres
      push_neg at hcond
      have hstep : (wSum g p : ℚ) / (wCnt g p) ≤ (bs : ℚ) / bc := by
        rcases lt_or_eq_of_le hcond with hlt | heq
        · exact le_of_lt ((frac_lt_iff (wSum g p) (wCnt g p) bs bc hc' hbc).mpr hlt)
        · exact le_of_eq ((frac_eq_iff (wSum g p) (wCnt g p) bs bc hc' hbc).mpr heq)
      refine ⟨?_, hcz, hinit, ?_⟩
      · rcases hmem with h1 | h1
        · exact Or.inl h1
        · exact Or.inr (List.mem_cons_of_mem p h1)
      · intro q hq
        rcases List.mem_cons.mp hq with h1 | h1
        · subst h1
          exact ⟨hc', le_trans hstep hinit⟩
        · exact hall q h1

theorem wSum_nonneg (g : DiGraph) (p : List Node) : 0 ≤ wSum g p := by
  rw [wSum]
  apply List.sum_nonneg
  intro x hx
  obtain ⟨e, _, rfl⟩ := List.mem_map.mp hx
  positivity

/-- C4: the two selection policies the code actually uses.  First part
(amends the claim for `solve_bubble`): its selection loop `bestLex` picks a
path of maximal `(average weight, node count)` in the lexicographic order —
strictly higher weight wins, and on an exact weight tie the longer path
wins.  Second part (amends the claim for the deferred-removal phase of
`simplify_bubbles` and for `solve_entry_tips`): their selection
`bestByWeight` (`max(...)` / `index(max(...))`) maximises the average
weight alone — on an exact tie the first-enumerated path is kept,
regardless of length. -/
theorem C4_selection_policies :
    (∀ (g : DiGraph) (paths : List (List Node)) (best : List Node)
        (s : Int) (c : Nat) (l : Int),
        paths ≠ [] →
        bestLex g paths = some (best, s, c, l) →
        best ∈ paths ∧
        (∀ p ∈ paths, ∃ wp wb, path_average_weight g p = some wp ∧
          path_average_weight g best = some wb ∧
          (wp < wb ∨ (wp = wb ∧ p.length ≤ best.length)))) ∧
    (∀ (g : DiGraph) (paths : List (List Node)) (best : List Node),
        bestByWeight g paths = some best →
        best ∈ paths ∧
        (∀ p ∈ paths, ∃ wp wb, path_average_weight g p = some wp ∧
          path_average_weight g best = some wb ∧ wp ≤ wb)) := by
  constructor
  · intro g paths best s c l hne h
    rw [bestLex] at h
    have hres := bestLexAux_spec g paths [] (-1) 1 (-1) best s c l one_ne_zero h
    obtain ⟨hcz, hmem, hinit, hall⟩ := hres
    have hd : ¬ (best = [] ∧ s = -1 ∧ c = 1 ∧ l = -1) := by
      rintro ⟨h1, h2, h3, h4⟩
      rcases paths with _ | ⟨p0, ps0⟩
      · exact hne rfl
      · have hp0 := hall p0 (List.mem_cons_self p0 ps0)
        obtain ⟨hc0, hge⟩ := hp0
        have hq0 : (0 : ℚ) ≤ (wSum g p0 : ℚ) / (wCnt g p0) := by
          apply div_nonneg
          · exact_mod_cast wSum_nonneg g p0
          · positivity
        rw [h2, h3, h4] at hge
        rcases hge with hlt | ⟨heq, _⟩
        · have : ((-1 : Int) : ℚ) / ((1 : Nat) : ℚ) = -1 := by norm_num
          rw [this] at hlt
          linarith
        · have : ((-1 : Int) : ℚ) / ((1 : Nat) : ℚ) = -1 := by norm_num
          rw [this] at heq
          linarith [heq ▸ hq0]
    rcases hmem with hl | ⟨hmem, hws, hwc, hlen⟩
    · exact absurd hl hd
    refine ⟨hmem, ?_⟩
    intro p hp
    obtain ⟨hcp, hge⟩ := hall p hp
    refine ⟨(wSum g p : ℚ) / (wCnt g p), (s : ℚ) / c,
      path_average_weight_eq_frac g p hcp, ?_, ?_⟩
    · rw [path_average_weight_eq_frac g best (by rw [hwc]; exact hcz), hws, hwc]
    · rcases hge with hlt | ⟨heq, hle⟩
      · exact Or.inl hlt
      · refine Or.inr ⟨heq.symm, ?_⟩
        rw [← hlen] at hle
        exact_mod_cast hle
  · intro g paths best h
    rw [bestByWeight.eq_def] at h
    rcases paths with _ | ⟨p0, ps0⟩
    · exact absurd h (by simp)
    have hred : (if wCnt g p0 = 0 then none
        else bestByWeightAux g ps0 (p0, wSum g p0, wCnt g p0)) = some best := h
    by_cases hc0 : wCnt g p0 = 0
    · rw [if_pos hc0] at hred
      exact absurd hred (by simp)
    rw [if_neg hc0] at hred
    have hres := bestByWeightAux_spec g ps0 p0 (wSum g p0) (wCnt g p0) best hc0 rfl rfl hred
    obtain ⟨hmem, hcz, hinit, hall⟩ := hres
    constructor
    · rcases hmem with h1 | h1
      · exact h1 ▸ List.mem_cons_self p0 ps0
      · exact List.mem_cons_of_mem p0 h1
    · intro p hp
      rcases List.mem_cons.mp hp with h1 | h1
      · subst h1
        exact ⟨(wSum g p : ℚ) / (wCnt g p), (wSum g best : ℚ) / (wCnt g best),
          path_average_weight_eq_frac g p hc0, path_average_weight_eq_frac g best hcz,
          hinit⟩
      · obtain ⟨hcp, hle⟩ := hall p h1
        exact ⟨(wSum g p : ℚ) / (wCnt g p), (wSum g best : ℚ) / (wCnt g best),
          path_average_weight_eq_frac g p hcp, path_average_weight_eq_frac g best hcz,
          hle⟩

/-- C4 counterexample: on an exact average-weight tie (both paths have mean
2), the deferred-removal phase of `simplify_bubbles` selects by
`max(paths, key=path_average_weight)` — the first-enumerated, *shorter*
path `[s, c]` — and deletes the interior node `a` of the longer tied path,
where the claim's lexicographic `(weight, length)` rule would keep `a`. -/
theorem C4_weight_only_tie_counterexample :
    all_simple_paths GraphC4 ['s'] ['c'] = [[['s'], ['c']], [['s'], ['a'], ['c']]] ∧
    path_average_weight GraphC4 [['s'], ['c']] = some 2 ∧
    path_average_weight GraphC4 [['s'], ['a'], ['c']] = some 2 ∧
    ([['s'], ['a'], ['c']] : List Node).length > ([['s'], ['c']] : List Node).length ∧
    bestByWeight GraphC4 (all_simple_paths GraphC4 ['s'] ['c']) = some [['s'], ['c']] ∧
    (simplify_bubbles GraphC4).2 = none ∧
    ['a'] ∉ (simplify_bubbles GraphC4).1.nodes := by
  refine ⟨by decide, ?_, ?_, by decide, by decide, by decide, by decide⟩
  · have h1 : wSum GraphC4 [['s'], ['c']] = 2 := by decide
    have h2 : wCnt GraphC4 [['s'], ['c']] = 1 := by decide
    rw [path_average_weight_eq_frac GraphC4 [['s'], ['c']] (by decide), h1, h2]
    norm_num
  · have h1 : wSum GraphC4 [['s'], ['a'], ['c']] = 6 := by decide
    have h2 : wCnt GraphC4 [['s'], ['a'], ['c']] = 3 := by decide
    rw [path_average_weight_eq_frac GraphC4 [['s'], ['a'], ['c']] (by decide), h1, h2]
    norm_num

theorem C4_selection_policies_witness :
    (all_simple_paths GraphC4 ['s'] ['c'] ≠ [] ∧
      bestLex GraphC4 (all_simple_paths GraphC4 ['s'] ['c']) =
        some ([['s'], ['a'], ['c']], 6, 3, 3)) ∧
    ([['s'], ['a'], ['c']] ∈ all_simple_paths GraphC4 ['s'] ['c'] ∧
      (∀ p ∈ all_simple_paths GraphC4 ['s'] ['c'], ∃ wp wb,
        path_average_weight GraphC4 p = some wp ∧
        path_average_weight GraphC4 [['s'], ['a'], ['c']] = some wb ∧
        (wp < wb ∨ (wp = wb ∧ p.length ≤ ([['s'], ['a'], ['c']] : List Node).length)))) :=
  ⟨⟨by decide, by decide⟩,
   C4_selection_policies.1 GraphC4 (all_simple_paths GraphC4 ['s'] ['c'])
     [['s'], ['a'], ['c']] 6 3 3 (by decide) (by decide)⟩

/-! ### What path_average_weight actually averages -/

theorem consecutivePairs_nil : consecutivePairs [] = [] := rfl

theorem consecutivePairs_single (x : Node) : consecutivePairs [x] = [] := rfl

theorem consecutivePairs_cons2 (x y : Node) (t : List Node) :
    consecutivePairs (x :: y :: t) = (x, y) :: consecutivePairs (y :: t) := rfl

theorem consecutivePairs_mem : ∀ (p : List Node) (a b : Node),
    (a, b) ∈ consecutivePairs p → a ∈ p ∧ b ∈ p := by
  intro p
  induction p with
  | nil =>
    intro a b h
    rw [consecutivePairs_nil] at h
    exact absurd h (List.not_mem_nil _)
  | cons x p ih =>
    intro a b h
    rcases p with _ | ⟨y, p2⟩
    · rw [consecutivePairs_single] at h
      exact absurd h (List.not_mem_nil _)
    · rw [consecutivePairs_cons2] at h
      rcases List.mem_cons.mp h with h1 | h1
      · injection h1 with h2 h3
        subst h2
        rw [h3]
        exact ⟨List.mem_cons_self _ _, List.mem_cons_of_mem _ (List.mem_cons_self _ _)⟩
      · obtain ⟨ha, hb⟩ := ih a b h1
        exact ⟨List.mem_cons_of_mem _ ha, List.mem_cons_of_mem _ hb⟩

/-- Evaluation helper for the spec-side consecutive-edge mean. -/
theorem path_average_weight_spec_eval (g : DiGraph) (p : List Node)
    (es : List (Node × Node × Nat))
    (h : g.edges.filter (fun e => (e.1, e.2.1) ∈ consecutivePairs p) = es)
    (hne : ¬ es.isEmpty) :
    path_average_weight_spec g p =
      some (((es.map (fun e => (e.2.2 : ℚ))).sum) / es.length) := by
  rw [path_average_weight_spec, h, if_neg hne]

/-- C6: what `path_average_weight` really computes.  It averages the
weights of *all* edges of the subgraph induced by the path's node set —
equal to the spec's consecutive-edge mean exactly when the path has no
chords (no induced edge between non-consecutive positions) — and it fails
with `StatisticsError` precisely when that induced edge set is empty: an
empty path always fails, but a one-node path fails only when the node has
no self-loop. -/
theorem C6_average_weight :
    (∀ g : DiGraph, path_average_weight g [] = none) ∧
    (∀ (g : DiGraph) (x : Node),
        path_average_weight g [x] = none ↔ ∀ w, (x, x, w) ∉ g.edges) ∧
    (∀ (g : DiGraph) (p : List Node),
        (∀ e ∈ g.edges, e.1 ∈ p → e.2.1 ∈ p → (e.1, e.2.1) ∈ consecutivePairs p) →
        path_average_weight g p = path_average_weight_spec g p) := by
  refine ⟨?_, ?_, ?_⟩
  · intro g
    rw [path_average_weight]
    have h : inducedEdges g [] = [] := by
      rw [inducedEdges]
      apply List.filter_eq_nil_iff.mpr
      intro e _
      simp
    rw [h]
    rfl
  · intro g x
    rw [path_average_weight]
    constructor
    · intro h w hw
      by_cases hemp : (inducedEdges g [x]).isEmpty
      · rw [List.isEmpty_iff] at hemp
        have : (x, x, w) ∈ inducedEdges g [x] := by
          rw [inducedEdges, List.mem_filter]
          exact ⟨hw, by simp⟩
        rw [hemp] at this
        exact absurd this (List.not_mem_nil _)
      · rw [if_neg hemp] at h
        exact absurd h (by simp)
    · intro h
      have hemp : inducedEdges g [x] = [] := by
        rw [inducedEdges]
        apply List.filter_eq_nil_iff.mpr
        intro e he
        simp only [List.mem_singleton, decide_eq_true_eq, not_and]
        intro h1 h2
        rcases e with ⟨e1, e2, e3⟩
        simp only at h1 h2
        subst h1
        subst h2
        exact absurd he (h e3)
      rw [hemp]
      rfl
  · intro g p hnc
    have heq : inducedEdges g p =
        g.edges.filter (fun e => (e.1, e.2.1) ∈ consecutivePairs p) := by
      rw [inducedEdges]
      apply List.filter_congr
      intro e he
      simp only [decide_eq_true_eq, decide_eq_decide]
      constructor
      · intro ⟨h1, h2⟩
        exact hnc e he h1 h2
      · intro h1
        exact consecutivePairs_mem p e.1 e.2.1 h1
    rw [path_average_weight, path_average_weight_spec, heq]

/-- C6 counterexample: for the genuine 3-node path `[s, a, c]` (both
consecutive edges exist), `path_average_weight` returns 4 — the mean over
the induced subgraph including the chord `s→c` — not the consecutive-edge
mean 2; and for the 1-node path `[x]` on a self-loop node it returns 3
instead of failing, although the path has fewer than 2 nodes. -/
theorem C6_induced_subgraph_counterexample :
    (['s'], ['a'], 2) ∈ GraphC6.edges ∧ (['a'], ['c'], 2) ∈ GraphC6.edges ∧
    path_average_weight GraphC6 [['s'], ['a'], ['c']] = some 4 ∧
    path_average_weight_spec GraphC6 [['s'], ['a'], ['c']] = some 2 ∧
    (4 : ℚ) ≠ 2 ∧
    ([['x']] : List Node).length < 2 ∧
    path_average_weight GraphSelfLoop [['x']] = some 3 := by
  refine ⟨by decide, by decide, ?_, ?_, by norm_num, by decide, ?_⟩
  · have h1 : wSum GraphC6 [['s'], ['a'], ['c']] = 12 := by decide
    have h2 : wCnt GraphC6 [['s'], ['a'], ['c']] = 3 := by decide
    rw [path_average_weight_eq_frac GraphC6 [['s'], ['a'], ['c']] (by decide), h1, h2]
    norm_num
  · rw [path_average_weight_spec_eval GraphC6 [['s'], ['a'], ['c']]
      [(['s'], ['a'], 2), (['a'], ['c'], 2)] (by decide) (by decide)]
    norm_num
  · have h1 : wSum GraphSelfLoop [['x']] = 3 := by decide
    have h2 : wCnt GraphSelfLoop [['x']] = 1 := by decide
    rw [path_average_weight_eq_frac GraphSelfLoop [['x']] (by decide), h1, h2]
    norm_num

theorem C6_average_weight_witness :
    (∀ e ∈ GraphChordFree.edges,
      e.1 ∈ [['s'], ['a'], ['c']] → e.2.1 ∈ [['s'], ['a'], ['c']] →
      (e.1, e.2.1) ∈ consecutivePairs [['s'], ['a'], ['c']]) ∧
    path_average_weight GraphChordFree [['s'], ['a'], ['c']] =
      path_average_weight_spec GraphChordFree [['s'], ['a'], ['c']] :=
  ⟨by decide, C6_average_weight.2.2 GraphChordFree [['s'], ['a'], ['c']] (by decide)⟩

/-! ### Single-read pipeline: sliding windows -/

theorem windows_pos (w : Nat) (l : List Char) (h1 : 1 ≤ w) (h2 : w ≤ l.length) :
    windows w l = l.take w :: windows w (l.drop 1) := by
  rw [windows]
  rw [dif_pos ⟨h1, h2⟩]

theorem windows_neg (w : Nat) (l : List Char) (h : ¬ (1 ≤ w ∧ w ≤ l.length)) :
    windows w l = [] := by
  rw [windows]
  rw [dif_neg h]

theorem windows_length (w : Nat) (h1 : 1 ≤ w) :
    ∀ l : List Char, (windows w l).length = l.length + 1 - w := by
  intro l
  induction l with
  | nil =>
    rw [windows_neg w [] (by simp; omega)]
    simp
    omega
  | cons x t ih =>
    by_cases h2 : w ≤ t.length + 1
    · rw [windows_pos w (x :: t) h1 (by simpa using h2)]
      simp only [List.length_cons, List.drop_one, List.tail_cons]
      rw [ih]
      omega
    · rw [windows_neg w (x :: t) (by simp; omega)]
      simp
      omega

theorem cut_kmer_eq_windows (k : Nat) (hk : 1 ≤ k) :
    ∀ l : List Char, cut_kmer l k = windows k l := by
  intro l
  induction l with
  | nil =>
    rw [cut_kmer, windows_neg k ([] : List Char) (by simp; omega)]
    have h0 : ([] : List Char).length + 1 - k = 0 := by simp; omega
    rw [h0]
    simp
  | cons x t ih =>
    by_cases h2 : k ≤ t.length + 1
    · rw [cut_kmer, windows_pos k (x :: t) hk (by simpa using h2)]
      have hcount : (x :: t).length + 1 - k = (t.length + 1 - k) + 1 := by
        simp only [List.length_cons]
        omega
      rw [hcount, List.range_succ_eq_map]
      simp only [List.map_cons, List.drop_zero, List.map_map]
      refine congrArg₂ List.cons rfl ?_
      rw [show List.drop 1 (x :: t) = t from rfl, ← ih, cut_kmer]
      apply List.map_congr_left
      intro i _
      simp only [Function.comp_apply, List.drop_succ_cons]
    · rw [cut_kmer, windows_neg k (x :: t) (by simp; omega)]
      have h0 : (x :: t).length + 1 - k = 0 := by
        simp only [List.length_cons]
        omega
      rw [h0]
      simp

theorem windows_getElem (w : Nat) (h1 : 1 ≤ w) :
    ∀ (i : Nat) (l : List Char), i + w ≤ l.length →
      (windows w l)[i]? = some ((l.drop i).take w) := by
  intro i
  induction i with
  | zero =>
    intro l hle
    rw [windows_pos w l h1 (by omega)]
    simp
  | succ i ih =>
    intro l hle
    rw [windows_pos w l h1 (by omega)]
    simp only [List.getElem?_cons_succ]
    rw [ih (l.drop 1) (by simp; omega)]
    rw [List.drop_drop]
    rw [Nat.add_comm 1 i]

theorem windows_nodup_transfer (k : Nat) (R : List Char) (hk : 2 ≤ k)
    (hL : k ≤ R.length) (hnd : (windows (k-1) R).Nodup) :
    (windows k R).Nodup := by
  rw [List.nodup_iff_getElem?_ne_getElem?]
  intro i j hij hj h
  rw [windows_length k (by omega) R] at hj
  have hi : i < R.length + 1 - k := lt_trans hij hj
  rw [windows_getElem k (by omega) i R (by omega),
      windows_getElem k (by omega) j R (by omega)] at h
  rw [Option.some_inj] at h
  have htk : (R.drop i).take (k-1) = (R.drop j).take (k-1) := by
    have h2 : ((R.drop i).take k).take (k-1) = ((R.drop j).take k).take (k-1) := by
      rw [h]
    rw [List.take_take, List.take_take] at h2
    have hmin : min (k-1) k = k - 1 := by omega
    rw [hmin] at h2
    exact h2
  have hnd' := List.nodup_iff_getElem?_ne_getElem?.mp hnd
  have := hnd' i j hij (by rw [windows_length (k-1) (by omega) R]; omega)
  apply this
  rw [windows_getElem (k-1) (by omega) i R (by omega),
      windows_getElem (k-1) (by omega) j R (by omega), htk]

/-! ### Single-read pipeline: the k-mer dictionary -/

theorem foldl_insertKmer_fresh :
    ∀ (ks : List (List Char)) (acc : List (List Char × Nat)),
      ks.Nodup → (∀ x ∈ ks, ∀ e ∈ acc, e.1 ≠ x) →
      ks.foldl insertKmer acc = acc ++ ks.map (fun km => (km, 1)) := by
  intro ks
  induction ks with
  | nil => intro acc _ _; simp
  | cons x ks ih =>
    intro acc hnd hfresh
    rw [List.foldl_cons]
    have hx : insertKmer acc x = acc ++ [(x, 1)] := by
      rw [insertKmer]
      rw [if_neg]
      simp only [List.any_eq_true, not_exists, not_and]
      intro e he
      simp only [decide_eq_true_eq]
      exact hfresh x (List.mem_cons_self x ks) e he
    rw [hx, ih (acc ++ [(x, 1)]) (List.Nodup.of_cons hnd)]
    · simp
    · intro y hy e he
      rcases List.mem_append.mp he with h1 | h1
      · exact hfresh y (List.mem_cons_of_mem x hy) e h1
      · rw [List.mem_singleton.mp h1]
        intro hcon
        simp only at hcon
        rw [← hcon] at hy
        exact (List.nodup_cons.mp hnd).1 hy

theorem consecutivePairs_src_dropLast : ∀ (l : List Node) (u v : Node),
    (u, v) ∈ consecutivePairs l → u ∈ l.dropLast := by
  intro l
  induction l with
  | nil =>
    intro u v h
    rw [consecutivePairs_nil] at h
    exact absurd h (List.not_mem_nil _)
  | cons x t ih =>
    intro u v h
    rcases t with _ | ⟨y, t2⟩
    · rw [consecutivePairs_single] at h
      exact absurd h (List.not_mem_nil _)
    · rw [consecutivePairs_cons2] at h
      rcases List.mem_cons.mp h with h1 | h1
      · injection h1 with h2 h3
        subst h2
        simp
      · have := ih u v h1
        rw [List.dropLast_cons₂]
        exact List.mem_cons_of_mem x this

theorem consecutivePairs_tgt_tail : ∀ (l : List Node) (u v : Node),
    (u, v) ∈ consecutivePairs l → v ∈ l.tail := by
  intro l
  induction l with
  | nil =>
    intro u v h
    rw [consecutivePairs_nil] at h
    exact absurd h (List.not_mem_nil _)
  | cons x t ih =>
    intro u v h
    rcases t with _ | ⟨y, t2⟩
    · rw [consecutivePairs_single] at h
      exact absurd h (List.not_mem_nil _)
    · rw [consecutivePairs_cons2] at h
      simp only [List.tail_cons]
      rcases List.mem_cons.mp h with h1 | h1
      · injection h1 with h2 h3
        rw [h3]
        exact List.mem_cons_self _ _
      · exact List.mem_cons_of_mem y (ih u v h1)

theorem consecutivePairs_concat2 : ∀ (xs : List Node) (a b : Node),
    consecutivePairs (xs ++ [a, b]) = consecutivePairs (xs ++ [a]) ++ [(a, b)] := by
  intro xs
  induction xs with
  | nil =>
    intro a b
    rw [List.nil_append, List.nil_append, consecutivePairs_cons2,
      consecutivePairs_single, consecutivePairs_single]
    rfl
  | cons x xs ih =>
    intro a b
    rcases xs with _ | ⟨y, xs2⟩
    · rw [List.cons_append, List.nil_append, List.cons_append, List.nil_append,
        consecutivePairs_cons2, consecutivePairs_cons2, consecutivePairs_cons2,
        consecutivePairs_single, consecutivePairs_single]
      rfl
    · have h1 : consecutivePairs (x :: (y :: xs2) ++ [a, b]) =
          (x, y) :: consecutivePairs ((y :: xs2) ++ [a, b]) := by
        rw [show (y :: xs2) ++ [a, b] = y :: (xs2 ++ [a, b]) from rfl]
        exact consecutivePairs_cons2 x y (xs2 ++ [a, b])
      have h2 : consecutivePairs (x :: (y :: xs2) ++ [a]) =
          (x, y) :: consecutivePairs ((y :: xs2) ++ [a]) := by
        rw [show (y :: xs2) ++ [a] = y :: (xs2 ++ [a]) from rfl]
        exact consecutivePairs_cons2 x y (xs2 ++ [a])
      rw [h1, h2, ih a b, List.cons_append]
      rfl

theorem add_edge_fresh (g : DiGraph) (u v : Node) (w : Nat)
    (hu : u ∈ g.nodes) (hv : v ∉ g.nodes)
    (hkey : (g.edges.any (fun e => e.1 = u ∧ e.2.1 = v)) = false) :
    add_edge g u v w = ⟨g.nodes ++ [v], g.edges ++ [(u, v, w)]⟩ := by
  have h1 : addNode g u = g := by rw [addNode, if_pos hu]
  have h2 : addNode g v = ⟨g.nodes ++ [v], g.edges⟩ := by rw [addNode, if_neg hv]
  rw [add_edge, h1, h2]
  split
  · rename_i hcond
    have hcond2 : (g.edges.any (fun e => e.1 = u ∧ e.2.1 = v)) = true := hcond
    rw [hkey] at hcond2
    exact absurd hcond2 (by simp)
  · rfl

theorem chain_fold_step (pre : List Node) (a b : Node)
    (hnd : (pre ++ [a]).Nodup) (hb : b ∉ pre ++ [a]) :
    add_edge (chainGraph (pre ++ [a])) a b 1 = chainGraph (pre ++ [a, b]) := by
  have hanotpre : a ∉ pre := by
    have hd := List.disjoint_of_nodup_append hnd
    intro hcon
    exact hd hcon (List.mem_singleton_self a)
  have hkey : ((chainGraph (pre ++ [a])).edges.any
      (fun e => e.1 = a ∧ e.2.1 = b)) = false := by
    rw [List.any_eq_false]
    intro e he
    have he2 : e ∈ (consecutivePairs (pre ++ [a])).map (fun q => (q.1, q.2, 1)) := he
    obtain ⟨q, hq, rfl⟩ := List.mem_map.mp he2
    rcases q with ⟨u, v⟩
    simp only [decide_eq_true_eq, not_and]
    intro hua
    exfalso
    have hsrc := consecutivePairs_src_dropLast (pre ++ [a]) u v hq
    rw [List.dropLast_concat] at hsrc
    rw [hua] at hsrc
    exact hanotpre hsrc
  rw [add_edge_fresh (chainGraph (pre ++ [a])) a b 1 (by rw [chainGraph]; simp) hb hkey]
  refine congrArg₂ DiGraph.mk ?_ ?_
  · show (pre ++ [a]) ++ [b] = pre ++ [a, b]
    simp
  · show (consecutivePairs (pre ++ [a])).map (fun q => (q.1, q.2, 1)) ++ [(a, b, 1)] =
      (consecutivePairs (pre ++ [a, b])).map (fun q => (q.1, q.2, 1))
    rw [consecutivePairs_concat2 pre a b]
    simp

theorem chain_fold :
    ∀ (rest : List Node) (pre : List Node) (c : Node),
      (pre ++ c :: rest).Nodup →
      (consecutivePairs (c :: rest)).foldl (fun g q => add_edge g q.1 q.2 1)
        (chainGraph (pre ++ [c])) = chainGraph (pre ++ c :: rest) := by
  intro rest
  induction rest with
  | nil =>
    intro pre c _
    rw [consecutivePairs_single, List.foldl_nil]
  | cons b rest ih =>
    intro pre c hnd
    rw [consecutivePairs_cons2, List.foldl_cons]
    have hndpc : (pre ++ [c]).Nodup := by
      refine List.Sublist.nodup ?_ hnd
      exact List.Sublist.append_left
        (List.cons_sublist_cons.mpr (List.nil_sublist (b :: rest))) pre
    have hbnot : b ∉ pre ++ [c] := by
      intro hmem
      have hd := List.disjoint_of_nodup_append hnd
      rcases List.mem_append.mp hmem with h1 | h1
      · exact hd h1 (List.mem_cons_of_mem c (List.mem_cons_self b rest))
      · have hcn : (c :: b :: rest).Nodup := (List.nodup_append.mp hnd).2.1
        have : c ∉ b :: rest := (List.nodup_cons.mp hcn).1
        rw [List.mem_singleton.mp h1] at this
        exact this (List.mem_cons_self c rest)
    rw [show add_edge (chainGraph (pre ++ [c])) c b 1 =
        chainGraph (pre ++ [c, b]) from chain_fold_step pre c b hndpc hbnot]
    have hre : pre ++ [c, b] = (pre ++ [c]) ++ [b] := by simp
    have hre2 : (pre ++ [c]) ++ b :: rest = pre ++ c :: b :: rest := by simp
    rw [hre, ← hre2]
    exact ih (pre ++ [c]) b (by rw [hre2]; exact hnd)

theorem kmer_pairs_eq (k : Nat) (hk : 2 ≤ k) :
    ∀ (l : List Char), k ≤ l.length →
      (windows k l).map (fun K => (K.take (K.length - 1), K.drop 1)) =
        consecutivePairs (windows (k-1) l) := by
  intro l
  induction l with
  | nil =>
    intro h
    simp at h
    omega
  | cons x t ih =>
    intro hL
    have hL' : k ≤ t.length + 1 := by simpa using hL
    rw [windows_pos k (x :: t) (by omega) hL]
    rw [windows_pos (k-1) (x :: t) (by omega) (by simp; omega)]
    have hlenK : ((x :: t).take k).length = k := by
      rw [List.length_take]
      simp only [List.length_cons]
      omega
    have hh1 : ((x :: t).take k).take (k - 1) = (x :: t).take (k - 1) := by
      rw [List.take_take]
      congr 1
      omega
    have hh2 : ((x :: t).take k).drop 1 = t.take (k - 1) := by
      rw [List.drop_take]
      rfl
    have hdrop1 : (x :: t).drop 1 = t := rfl
    rw [hdrop1]
    by_cases ht : k ≤ t.length
    · rw [windows_pos (k-1) t (by omega) (by omega)]
      rw [List.map_cons, consecutivePairs_cons2]
      refine congrArg₂ List.cons ?_ ?_
      · simp only [hlenK, hh1, hh2]
      · rw [← windows_pos (k-1) t (by omega) (by omega)]
        exact ih ht
    · rw [windows_neg k t (by omega)]
      rw [windows_pos (k-1) t (by omega) (by omega)]
      rw [windows_neg (k-1) (t.drop 1) (by simp; omega)]
      rw [List.map_cons, List.map_nil, consecutivePairs_cons2, consecutivePairs_single]
      simp only [hlenK, hh1, hh2]

theorem build_graph_single_read (R : List Char) (k : Nat) (hk : 2 ≤ k)
    (hL : k ≤ R.length) (hnd : (windows (k-1) R).Nodup) :
    build_graph (build_kmer_dict [R] k) = chainGraph (windows (k-1) R) := by
  have hdict : build_kmer_dict [R] k = (windows k R).map (fun km => (km, 1)) := by
    rw [build_kmer_dict]
    simp only [List.foldl_cons, List.foldl_nil]
    rw [cut_kmer_eq_windows k (by omega) R]
    exact foldl_insertKmer_fresh (windows k R) []
      (windows_nodup_transfer k R hk hL hnd)
      (by intro x _ e he; exact absurd he (List.not_mem_nil e))
  rw [hdict]
  have hstep : build_graph ((windows k R).map (fun km => (km, 1))) =
      ((windows k R).map (fun K => (K.take (K.length - 1), K.drop 1))).foldl
        (fun g q => add_edge g q.1 q.2 1) (⟨[], []⟩ : DiGraph) := by
    rw [build_graph, List.foldl_map, List.foldl_map]
  rw [hstep, kmer_pairs_eq k hk R hL]
  have hlen : (windows (k-1) R).length = R.length + 2 - k := by
    rw [windows_length (k-1) (by omega) R]
    omega
  rcases hns : windows (k-1) R with _ | ⟨n0, _ | ⟨n1, rest⟩⟩
  · rw [hns] at hlen
    simp at hlen
    omega
  · rw [hns] at hlen
    simp at hlen
    omega
  · rw [hns] at hnd
    rw [consecutivePairs_cons2, List.foldl_cons]
    have hfirst : add_edge (⟨[], []⟩ : DiGraph) n0 n1 1 = chainGraph ([n0] ++ [n1]) := by
      have hne : n1 ∉ ([n0] : List Node) := by
        have := (List.nodup_cons.mp hnd).1
        simp only [List.mem_singleton]
        intro hcon
        rw [hcon] at this
        exact this (List.mem_cons_self n0 rest)
      have ha1 : addNode (⟨[], []⟩ : DiGraph) n0 = ⟨[n0], []⟩ := by
        rw [addNode, if_neg (List.not_mem_nil n0)]
        rfl
      have ha2 : addNode (⟨[n0], []⟩ : DiGraph) n1 = ⟨[n0, n1], []⟩ := by
        rw [addNode, if_neg hne]
        rfl
      rw [add_edge, ha1, ha2]
      have hany : (([] : List (Node × Node × Nat)).any
          (fun e => e.1 = n0 ∧ e.2.1 = n1)) = false := rfl
      simp only [hany, Bool.false_eq_true, if_false]
      rw [chainGraph]
      rw [show ([n0] ++ [n1] : List Node) = [n0, n1] from rfl,
        consecutivePairs_cons2, consecutivePairs_single]
      rfl
    rw [hfirst]
    have := chain_fold rest [n0] n1 (by simpa using hnd)
    rw [show ([n0] ++ n1 :: rest : List Node) = n0 :: n1 :: rest by simp] at this
    exact this

theorem tail_mem_pair : ∀ (l : List Node) (x : Node), x ∈ l.tail →
    ∃ u, (u, x) ∈ consecutivePairs l := by
  intro l
  induction l with
  | nil => intro x h; simp at h
  | cons a t ih =>
    intro x hx
    simp only [List.tail_cons] at hx
    rcases t with _ | ⟨b, t2⟩
    · exact absurd hx (List.not_mem_nil x)
    · rcases List.mem_cons.mp hx with h1 | h1
      · subst h1
        exact ⟨a, by rw [consecutivePairs_cons2]; exact List.mem_cons_self _ _⟩
      · obtain ⟨u, hu⟩ := ih x (by simpa using h1)
        exact ⟨u, by rw [consecutivePairs_cons2]; exact List.mem_cons_of_mem _ hu⟩

theorem dropLast_mem_pair : ∀ (l : List Node) (x : Node), x ∈ l.dropLast →
    ∃ v, (x, v) ∈ consecutivePairs l := by
  intro l
  induction l with
  | nil => intro x h; simp at h
  | cons a t ih =>
    intro x hx
    rcases t with _ | ⟨b, t2⟩
    · simp at hx
    · rw [List.dropLast_cons₂] at hx
      rcases List.mem_cons.mp hx with h1 | h1
      · subst h1
        exact ⟨b, by rw [consecutivePairs_cons2]; exact List.mem_cons_self _ _⟩
      · obtain ⟨v, hv⟩ := ih x h1
        exact ⟨v, by rw [consecutivePairs_cons2]; exact List.mem_cons_of_mem _ hv⟩

theorem chain_starting (n0 : Node) (rest : List Node)
    (hnd : (n0 :: rest).Nodup) :
    get_starting_nodes (chainGraph (n0 :: rest)) = [n0] := by
  have hhead : in_degree (chainGraph (n0 :: rest)) n0 = 0 := by
    rw [in_degree, predecessors]
    have hfil : (chainGraph (n0 :: rest)).edges.filter
        (fun e => e.2.1 = n0) = [] := by
      rw [List.filter_eq_nil_iff]
      intro e he
      have he2 : e ∈ (consecutivePairs (n0 :: rest)).map (fun q => (q.1, q.2, 1)) := he
      obtain ⟨⟨u, v⟩, hq, rfl⟩ := List.mem_map.mp he2
      simp only [decide_eq_true_eq]
      intro hcon
      have := consecutivePairs_tgt_tail (n0 :: rest) u v hq
      simp only [List.tail_cons] at this
      rw [hcon] at this
      exact (List.nodup_cons.mp hnd).1 this
    rw [hfil]
    rfl
  have htail : ∀ x ∈ rest, ¬ in_degree (chainGraph (n0 :: rest)) x = 0 := by
    intro x hx
    obtain ⟨u, hu⟩ := tail_mem_pair (n0 :: rest) x (by simpa using hx)
    rw [in_degree, predecessors]
    intro hcon
    rw [List.length_eq_zero, List.map_eq_nil_iff, List.filter_eq_nil_iff] at hcon
    have hedge : (u, x, 1) ∈ (chainGraph (n0 :: rest)).edges := by
      have : (u, x, 1) ∈ (consecutivePairs (n0 :: rest)).map (fun q => (q.1, q.2, 1)) :=
        List.mem_map.mpr ⟨(u, x), hu, rfl⟩
      exact this
    exact hcon (u, x, 1) hedge (by simp)
  rw [get_starting_nodes]
  have hnodes : (chainGraph (n0 :: rest)).nodes = n0 :: rest := rfl
  rw [hnodes, List.filter_cons_of_pos (by simp [hhead])]
  rw [List.filter_eq_nil_iff.mpr (by
    intro x hx
    simp only [decide_eq_true_eq]
    exact htail x hx)]

theorem chain_sink (pre : List Node) (z : Node) (hnd : (pre ++ [z]).Nodup) :
    get_sink_nodes (chainGraph (pre ++ [z])) = [z] := by
  have hznot : z ∉ pre := by
    have hd := List.disjoint_of_nodup_append hnd
    intro hcon
    exact hd hcon (List.mem_singleton_self z)
  have hlast : out_degree (chainGraph (pre ++ [z])) z = 0 := by
    rw [out_degree, successors]
    have hfil : (chainGraph (pre ++ [z])).edges.filter (fun e => e.1 = z) = [] := by
      rw [List.filter_eq_nil_iff]
      intro e he
      have he2 : e ∈ (consecutivePairs (pre ++ [z])).map (fun q => (q.1, q.2, 1)) := he
      obtain ⟨⟨u, v⟩, hq, rfl⟩ := List.mem_map.mp he2
      simp only [decide_eq_true_eq]
      intro hcon
      have := consecutivePairs_src_dropLast (pre ++ [z]) u v hq
      rw [List.dropLast_concat] at this
      rw [hcon] at this
      exact hznot this
    rw [hfil]
    rfl
  have hpre : ∀ x ∈ pre, ¬ out_degree (chainGraph (pre ++ [z])) x = 0 := by
    intro x hx
    obtain ⟨v, hv⟩ := dropLast_mem_pair (pre ++ [z]) x (by rw [List.dropLast_concat]; exact hx)
    rw [out_degree, successors]
    intro hcon
    rw [List.length_eq_zero, List.map_eq_nil_iff, List.filter_eq_nil_iff] at hcon
    have hedge : (x, v, 1) ∈ (chainGraph (pre ++ [z])).edges := by
      have : (x, v, 1) ∈ (consecutivePairs (pre ++ [z])).map (fun q => (q.1, q.2, 1)) :=
        List.mem_map.mpr ⟨(x, v), hv, rfl⟩
      exact this
    exact hcon (x, v, 1) hedge (by simp)
  rw [get_sink_nodes]
  have hnodes : (chainGraph (pre ++ [z])).nodes = pre ++ [z] := rfl
  rw [hnodes, List.filter_append]
  rw [List.filter_eq_nil_iff.mpr (by
    intro x hx
    simp only [decide_eq_true_eq]
    exact hpre x hx)]
  rw [List.filter_cons_of_pos (by simp [hlast])]
  rfl

theorem pairs_filter_src : ∀ (pre : List Node) (c : Node) (suf : List Node),
    (pre ++ c :: suf).Nodup →
    (consecutivePairs (pre ++ c :: suf)).filter (fun q => q.1 = c) =
      (match suf with
       | [] => []
       | b :: _ => [(c, b)]) := by
  intro pre
  induction pre with
  | nil =>
    intro c suf hnd
    rcases suf with _ | ⟨b, suf2⟩
    · rw [List.nil_append, consecutivePairs_single]
      rfl
    · rw [List.nil_append, consecutivePairs_cons2, List.filter_cons_of_pos (by simp)]
      rw [List.filter_eq_nil_iff.mpr (by
        intro q hq
        rcases q with ⟨u, v⟩
        simp only [decide_eq_true_eq]
        intro hcon
        have := consecutivePairs_src_dropLast (b :: suf2) u v hq
        have hc : c ∉ b :: suf2 := (List.nodup_cons.mp hnd).1
        rw [hcon] at this
        exact hc (List.dropLast_sublist (b :: suf2) |>.mem this))]
  | cons x pre ih =>
    intro c suf hnd
    have hx : x ∉ pre ++ c :: suf := (List.nodup_cons.mp hnd).1
    have hxc : ¬ x = c := by
      intro hcon
      apply hx
      rw [hcon]
      exact List.mem_append.mpr (Or.inr (List.mem_cons_self c suf))
    rcases hp : pre ++ c :: suf with _ | ⟨y, t⟩
    · exact absurd hp (by simp)
    · have hcons : consecutivePairs (x :: pre ++ c :: suf) =
          (x, y) :: consecutivePairs (pre ++ c :: suf) := by
        rw [show x :: pre ++ c :: suf = x :: (pre ++ c :: suf) from rfl, hp]
        exact consecutivePairs_cons2 x y t
      rw [hcons, List.filter_cons_of_neg (by simpa using hxc)]
      exact ih c suf (List.nodup_cons.mp hnd).2

theorem chain_succ (pre : List Node) (c : Node) (suf : List Node)
    (hnd : (pre ++ c :: suf).Nodup) :
    successors (chainGraph (pre ++ c :: suf)) c =
      (match suf with
       | [] => []
       | b :: _ => [b]) := by
  rw [successors]
  have hedges : (chainGraph (pre ++ c :: suf)).edges =
      (consecutivePairs (pre ++ c :: suf)).map (fun q => (q.1, q.2, 1)) := rfl
  rw [hedges, List.filter_map]
  have hcomp : ((fun e : Node × Node × Nat => decide (e.1 = c)) ∘
      (fun q : Node × Node => (q.1, q.2, 1))) = (fun q => decide (q.1 = c)) := by
    funext q
    rfl
  rw [hcomp, pairs_filter_src pre c suf hnd]
  rcases suf with _ | ⟨b, suf2⟩
  · rfl
  · rfl

theorem chain_unique_path (ns : List Node) (hnd : ns.Nodup) :
    ∀ (rest : List Node) (c : Node) (pre : List Node) (visited : List Node) (fuel : Nat),
      ns = pre ++ c :: rest →
      (∀ x ∈ rest, x ∉ visited) →
      rest.length ≤ fuel →
      allSimplePathsAux (chainGraph ns)
        ((c :: rest).getLast (List.cons_ne_nil c rest)) fuel c visited
        = [c :: rest] := by
  intro rest
  induction rest with
  | nil =>
    intro c pre visited fuel _ _ _
    have hgl : (([c] : List Node)).getLast (List.cons_ne_nil c []) = c := rfl
    rw [hgl, allSimplePathsAux.eq_def]
    simp
  | cons b rest ih =>
    intro c pre visited fuel hsplit hvis hfuel
    have hndsuf : (c :: b :: rest).Nodup := (List.nodup_append.mp (hsplit ▸ hnd)).2.1
    have hcnot : c ∉ b :: rest := (List.nodup_cons.mp hndsuf).1
    have hgl : ((c :: b :: rest).getLast (List.cons_ne_nil c (b :: rest))) =
        ((b :: rest).getLast (List.cons_ne_nil b rest)) :=
      List.getLast_cons (List.cons_ne_nil b rest)
    have hne : ¬ c = (b :: rest).getLast (List.cons_ne_nil b rest) := by
      intro hcon
      apply hcnot
      rw [hcon]
      exact List.getLast_mem (List.cons_ne_nil b rest)
    obtain ⟨f, rfl⟩ : ∃ f, fuel = f + 1 := ⟨fuel - 1, by
      have : 1 ≤ fuel := le_trans (by simp) hfuel
      omega⟩
    rw [hgl, allSimplePathsAux_succ, if_neg hne]
    have hsucc : successors (chainGraph ns) c = [b] := by
      rw [hsplit]
      exact chain_succ pre c (b :: rest) (hsplit ▸ hnd)
    rw [hsucc]
    have hbvis : b ∉ visited := hvis b (List.mem_cons_self b rest)
    rw [List.filter_cons_of_pos (by simpa using hbvis), List.filter_nil]
    rw [List.flatMap_cons, List.flatMap_nil, List.append_nil]
    have hih := ih b (pre ++ [c]) (b :: visited) f
      (by rw [hsplit]; simp)
      (by
        intro x hx
        have hxb : ¬ x = b := by
          intro hcon
          have : b ∉ rest := (List.nodup_cons.mp (List.nodup_cons.mp hndsuf).2).1
          rw [hcon] at hx
          exact this hx
        simp only [List.mem_cons]
        push_neg
        exact ⟨hxb, hvis x (List.mem_cons_of_mem b hx)⟩)
      (by simpa using hfuel)
    rw [hih]
    rfl

theorem windows_reconstruct (w : Nat) (h1 : 1 ≤ w) :
    ∀ (n : Nat) (l : List Char), l.length ≤ n → w ≤ l.length →
      l.take w ++ (windows w (l.drop 1)).flatMap lastChar = l := by
  intro n
  induction n with
  | zero =>
    intro l hn hw
    omega
  | succ n ihn =>
    intro l hn hw
    by_cases hc : l.length = w
    · rw [windows_neg w (l.drop 1) (by simp; omega)]
      simp only [List.flatMap_nil, List.append_nil]
      rw [← hc, List.take_length]
    · have hlt : w < l.length := by omega
      rw [windows_pos w (l.drop 1) h1 (by simp; omega)]
      rw [List.flatMap_cons]
      have hwin : (l.drop 1).take w = (l.drop 1).take (w-1) ++ [l[w]] := by
        have hgl : (l.drop 1)[w-1]? = some (l[w]) := by
          rw [List.getElem?_drop]
          rw [show 1 + (w - 1) = w by omega]
          rw [List.getElem?_eq_getElem hlt]
        conv_lhs => rw [show w = (w - 1) + 1 by omega]
        rw [List.take_succ, hgl]
        rfl
      have hlc : lastChar ((l.drop 1).take w) = [l[w]] := by
        rw [lastChar, hwin, List.getLast?_concat]
      have hX : (windows w ((l.drop 1).drop 1)).flatMap lastChar = l.drop (1 + w) := by
        have hih := ihn (l.drop 1) (by simp; omega) (by simp; omega)
        have htad : (l.drop 1).take w ++ (l.drop 1).drop w = l.drop 1 :=
          List.take_append_drop w (l.drop 1)
        have := List.append_cancel_left (hih.trans htad.symm)
        rw [this, List.drop_drop]
      rw [hlc, hX]
      have hdrop : l.drop w = l[w] :: l.drop (w + 1) := List.drop_eq_getElem_cons hlt
      have hta : l.take w ++ l.drop w = l := List.take_append_drop w l
      rw [show (1 + w) = w + 1 by omega]
      rw [show ([l[w]] ++ l.drop (w + 1)) = l.drop w from by rw [hdrop]; rfl]
      exact hta

theorem contigOfPath_eq_reconstructSpec : ∀ (p : List Node),
    contigOfPath p = reconstructSpec p := by
  have haux : ∀ (t : List Node) (acc : List Char),
      t.foldl (fun a n => a ++ lastChar n) acc = acc ++ t.flatMap lastChar := by
    intro t
    induction t with
    | nil => intro acc; simp
    | cons n t ih =>
      intro acc
      rw [List.foldl_cons, ih, List.flatMap_cons, List.append_assoc]
  intro p
  rcases p with _ | ⟨h, t⟩
  · rfl
  · rw [contigOfPath, reconstructSpec]
    exact haux t h

theorem reconstructSpec_cons (h : Node) (t : List Node) :
    reconstructSpec (h :: t) = h ++ t.flatMap lastChar := rfl

/-- C1 (amended): for a single error-free read `R` of length at least `k`
whose `(k−1)`-mers (sliding windows of width k−1, the graph nodes) are all
distinct, the pipeline — k-mer dictionary, graph construction, contig
extraction over the starting and sink nodes — produces exactly one contig,
and it equals `R`; and for every enumerated source-to-sink path the
reconstructed sequence is the source node's full string followed by the
last character of each subsequent node (the code's accumulation loop
computes exactly the spec's formula). -/
theorem C1_single_read_contig (R : List Char) (k : Nat) (hk : 2 ≤ k)
    (hL : k ≤ R.length) (hnd : (windows (k-1) R).Nodup) :
    (get_contigs (build_graph (build_kmer_dict [R] k))
       (get_starting_nodes (build_graph (build_kmer_dict [R] k)))
       (get_sink_nodes (build_graph (build_kmer_dict [R] k)))
       = [(R, R.length)]) ∧
    (∀ p : List Node, contigOfPath p = reconstructSpec p) := by
  refine ⟨?_, contigOfPath_eq_reconstructSpec⟩
  rw [build_graph_single_read R k hk hL hnd]
  have hlen : (windows (k-1) R).length = R.length + 2 - k := by
    rw [windows_length (k-1) (by omega) R]
    omega
  rcases hcase : windows (k-1) R with _ | ⟨n0, _ | ⟨n1, rest2⟩⟩
  · rw [hcase] at hlen
    simp at hlen
    omega
  · rw [hcase] at hlen
    simp at hlen
    omega
  rw [hcase] at hnd
  obtain ⟨pre, z, hz⟩ : ∃ pre z, (n0 :: n1 :: rest2 : List Node) = pre ++ [z] :=
    ⟨(n0 :: n1 :: rest2).dropLast, (n0 :: n1 :: rest2).getLast (by simp),
      ((n0 :: n1 :: rest2).dropLast_append_getLast (by simp)).symm⟩
  have hglz : (n0 :: n1 :: rest2).getLast (List.cons_ne_nil n0 (n1 :: rest2)) = z := by
    have h1 : (n0 :: n1 :: rest2).getLast? =
        some ((n0 :: n1 :: rest2).getLast (List.cons_ne_nil n0 (n1 :: rest2))) :=
      List.getLast?_eq_getLast _ _
    have h2 : (n0 :: n1 :: rest2).getLast? = some z := by
      rw [hz]
      exact List.getLast?_concat pre
    rw [h2] at h1
    exact (Option.some_inj.mp h1).symm
  have hstart : get_starting_nodes (chainGraph (n0 :: n1 :: rest2)) = [n0] :=
    chain_starting n0 (n1 :: rest2) hnd
  have hsink : get_sink_nodes (chainGraph (n0 :: n1 :: rest2)) = [z] := by
    rw [hz]
    exact chain_sink pre z (hz ▸ hnd)
  have hpaths : all_simple_paths (chainGraph (n0 :: n1 :: rest2)) n0 z
      = [n0 :: n1 :: rest2] := by
    rw [all_simple_paths, ← hglz]
    exact chain_unique_path (n0 :: n1 :: rest2) hnd (n1 :: rest2) n0 [] [n0]
      (chainGraph (n0 :: n1 :: rest2)).nodes.length rfl
      (by
        intro x hx
        simp only [List.mem_singleton]
        intro hcon
        rw [hcon] at hx
        exact (List.nodup_cons.mp hnd).1 hx)
      (by
        have : (chainGraph (n0 :: n1 :: rest2)).nodes = n0 :: n1 :: rest2 := rfl
        rw [this]
        simp)
  have hhasp : hasPathB (chainGraph (n0 :: n1 :: rest2)) n0 z = true := by
    rw [hasPathB, hpaths]
    rfl
  rw [hstart, hsink, get_contigs]
  simp only [List.flatMap_cons, List.flatMap_nil, List.append_nil]
  rw [if_pos hhasp, hpaths, List.map_cons, List.map_nil]
  have hrec : contigOfPath (n0 :: n1 :: rest2) = R := by
    rw [contigOfPath_eq_reconstructSpec]
    have hwp := windows_pos (k-1) R (by omega) (by omega)
    rw [hcase] at hwp
    injection hwp with h1 h2
    rw [reconstructSpec_cons, h1, h2]
    exact windows_reconstruct (k-1) (by omega) R.length R (le_refl _) (by omega)
  rw [hrec]

/-- C1 counterexample: the read `AACAA` (k = 3, length 5 ≥ 3) has no
repeated k-mer, yet the pipeline returns no contig at all — the claim's
"exactly one contig equal to R" fails whenever a (k−1)-mer repeats even
though all k-mers are distinct. -/
theorem C1_repeated_node_counterexample :
    (cut_kmer ReadAACAA 3).Nodup ∧
    3 ≤ ReadAACAA.length ∧
    get_contigs (build_graph (build_kmer_dict [ReadAACAA] 3))
      (get_starting_nodes (build_graph (build_kmer_dict [ReadAACAA] 3)))
      (get_sink_nodes (build_graph (build_kmer_dict [ReadAACAA] 3))) = [] := by
  refine ⟨by decide, by decide, by decide⟩

theorem C1_single_read_contig_witness :
    (2 ≤ 4 ∧ 4 ≤ ReadTATAAT.length ∧ (windows (4-1) ReadTATAAT).Nodup) ∧
    get_contigs (build_graph (build_kmer_dict [ReadTATAAT] 4))
      (get_starting_nodes (build_graph (build_kmer_dict [ReadTATAAT] 4)))
      (get_sink_nodes (build_graph (build_kmer_dict [ReadTATAAT] 4)))
      = [(ReadTATAAT, ReadTATAAT.length)] :=
  ⟨⟨by decide, by decide, by
      rw [← cut_kmer_eq_windows (4-1) (by omega) ReadTATAAT]
      decide⟩,
   (C1_single_read_contig ReadTATAAT 4 (by decide) (by decide) (by
      rw [← cut_kmer_eq_windows (4-1) (by omega) ReadTATAAT]
      decide)).1⟩
